import Mathlib

/-!
# Arvia development server and build pipeline (`cmd/arvia/main.go`)

A shallow embedding of the live-reload development server, the debounced file
watcher, the reload broadcast and the build pipeline, followed by the
properties established about them.

Conventions of the embedding:

* a Go `string` is the list of its bytes (`GoString`);
* a file name is resolved to a `Path`, the list of the elements of the cleaned
  name; a rooted path starts with the empty element, `.` is the empty list;
* the file system is a finite table from paths to entries, regular files and
  directories only (no symbolic links); what the system refuses for a reason
  that the table does not show, such as the mode of a directory, is an
  argument `deny` of the calls of the build;
* the development server only reads, and looks a name made by `filepath.Join`
  up as its cleaned path, relative to the working directory;
* the build removes and writes, and works on absolute paths, so that two names
  of one directory are one path: the working directory lies at the elements
  `cwd` below the root; a name handed to the system as it stands in the
  configuration is resolved from there element by element through the table,
  a name made by `filepath.Join` stands for its cleaned form;
* loops that follow the file system (`filepath.Walk`) take a fuel argument and
  return `none` when it runs out.
-/

namespace Arvia

/-! ## Strings -/

/-- A Go string: a sequence of bytes. -/
abbrev GoString := List Nat

/-- The bytes of an ASCII literal. -/
def ascii (s : String) : GoString := s.toList.map Char.toNat

/-- Go `strings.HasSuffix`. -/
def HasSuffix (s suffix : GoString) : Bool := suffix.isSuffixOf s

/-- Go `strings.HasPrefix`. -/
def HasPrefix (s pre : GoString) : Bool := pre.isPrefixOf s

/-- Go `strings.TrimPrefix`: `s` without the leading `pre`, or `s` itself. -/
def TrimPrefix (s pre : GoString) : GoString :=
  if HasPrefix s pre then s.drop pre.length else s

/-- The backward scan of `strings.LastIndex`: the greatest start `i ≤ k` at
which `substr` matches, or `-1`. -/
def lastIndexFrom (s substr : GoString) : Nat → Int
  | 0 => if substr.isPrefixOf s then 0 else -1
  | k + 1 =>
    if substr.isPrefixOf (s.drop (k + 1)) then ((k + 1 : Nat) : Int)
    else lastIndexFrom s substr k

/-- Go `strings.LastIndex`: index of the last instance of `substr` in `s`, or
`-1` (the hashing of the library version only speeds the comparison up). -/
def LastIndex (s substr : GoString) : Int :=
  if substr.length = 0 then (s.length : Int)
  else if s.length < substr.length then -1
  else lastIndexFrom s substr (s.length - substr.length)

/-- The decimal form of an `int`, as `fmt.Sprintf("%d", n)` prints it. -/
def fmtInt : Int → GoString
  | Int.ofNat n => ascii (Nat.repr n)
  | Int.negSucc n => 45 :: ascii (Nat.repr (n + 1))

/-! ## Paths (`path/filepath`) -/

/-- A cleaned file name, element by element. -/
abbrev Path := List GoString

/-- The element `.`. -/
def dot : GoString := [46]

/-- The element `..`. -/
def dotdot : GoString := [46, 46]

/-- The pieces of a name between its slashes (byte 47). -/
def splitSlash : GoString → List GoString
  | [] => [[]]
  | c :: cs =>
    if c = 47 then [] :: splitSlash cs
    else
      match splitSlash cs with
      | [] => [[c]]
      | seg :: rest => (c :: seg) :: rest

/-- One element of `filepath.Clean`; `stk` holds the output elements, last
one first. Empty and `.` elements are dropped, `..` removes the element before
it, is dropped at the root, and is kept at the start of a relative path. -/
def cleanStep (rooted : Bool) (stk : List GoString) (seg : GoString) : List GoString :=
  if seg = [] ∨ seg = dot then stk
  else if seg = dotdot then
    match stk with
    | [] => if rooted then [] else [dotdot]
    | top :: rest => if top = dotdot then dotdot :: top :: rest else rest
  else seg :: stk

/-- Go `filepath.Clean` (Unix), giving the elements of the cleaned name. -/
def Clean (path : GoString) : Path :=
  let rooted := path.head? == some 47
  (if rooted then [[]] else []) ++ ((splitSlash path).foldl (cleanStep rooted) []).reverse

/-- Go `strings.Join(elems, "/")`. -/
def joinSlash : List GoString → GoString
  | [] => []
  | [e] => e
  | e :: es => e ++ 47 :: joinSlash es

/-- Go `filepath.Join`: leading empty elements are ignored, the rest is joined
with slashes and cleaned. `none` is the empty string, which names no file. -/
def Join (elem : List GoString) : Option Path :=
  match elem.dropWhile (fun e => e == []) with
  | [] => none
  | es => some (Clean (joinSlash es))

/-- Lexical containment: `p` is `root` followed by elements none of which is
`..` or empty (the empty element marks a rooted path). -/
def inside (root p : Path) : Bool :=
  root.isPrefixOf p && !(p.drop root.length).contains dotdot &&
    !(p.drop root.length).contains []

/-! ## File system -/

/-- What a path can name. -/
inductive Entry where
  | file (content : GoString) (readable : Bool)
  | dir
deriving DecidableEq, Repr

/-- The file system: a table from paths to entries, first match wins. -/
abbrev FS := List (Path × Entry)

/-- Look a path up; the working directory `.` and the root `/` always exist. -/
def statPath (fs : FS) (p : Path) : Option Entry :=
  if p = [] ∨ p = [[]] then some Entry.dir else fs.lookup p

/-- Go `os.Stat` on a joined name: `some` when `err == nil`. -/
def Stat (fs : FS) : Option Path → Option Entry
  | none => none
  | some p => statPath fs p

/-- Go `os.ReadFile`: the bytes of a readable regular file. -/
def ReadFile (fs : FS) (name : Option Path) : Option GoString :=
  match Stat fs name with
  | some (Entry.file content true) => some content
  | _ => none

/-! ## Configuration and the development server -/

/-- The project configuration (`arvia.json`). -/
structure Config where
  Name : GoString
  Version : GoString
  Source : GoString
  Build : GoString
  Assets : GoString
  Port : Int
deriving DecidableEq, Repr

/-- The default configuration. -/
def defaultConfig : Config where
  Name := ascii "arvia-app"
  Version := ascii "1.0.0"
  Source := ascii "src"
  Build := ascii "dist"
  Assets := ascii "assets"
  Port := 8080

/-- What the handler does with the response writer. -/
inductive Response where
  /-- The call `http.Error(w, msg, code)`. -/
  | error (msg : GoString) (code : Nat)
  /-- Headers set with `w.Header().Set`, then `w.Write(body)`. -/
  | write (header : List (GoString × GoString)) (body : GoString)
  /-- Headers set by the handler, then `http.ServeFile(w, r, name)` for the
  request whose `URL.Path` is `urlPath`. -/
  | serveFile (header : List (GoString × GoString)) (urlPath : GoString) (name : Option Path)
deriving DecidableEq, Repr

/-- The closing tag the script is placed before. -/
def closingBody : GoString := ascii "</body>"

/-- The script block of `serveDevelopmentFiles` for a port. -/
def liveReloadScript (port : Int) : GoString :=
  ascii "\n<script>\n    const ws = new WebSocket(\x27ws://localhost:" ++ fmtInt port ++
  ascii "/ws\x27);\n    ws.onmessage = function(event) \x7b\n        if (event.data === \x27reload\x27) \x7b\n            location.reload();\n        \x7d\n    \x7d;\n</script>"

/-- The splice of `serveDevelopmentFiles`: the script goes before the last
closing body tag when there is one. -/
def injectLiveReload (port : Int) (htmlContent : GoString) : GoString :=
  let idx := LastIndex htmlContent closingBody
  if idx ≠ -1 then
    htmlContent.take idx.toNat ++ liveReloadScript port ++ htmlContent.drop idx.toNat
  else htmlContent

/-- The first step of the handler: the root path stands for the index page. -/
def handleRoot (urlPath : GoString) : GoString :=
  if urlPath = ascii "/" then ascii "/index.html" else urlPath

/-- The handler `serveDevelopmentFiles` on a request with `r.URL.Path = urlPath`. -/
def serveDevelopmentFiles (config : Config) (fs : FS) (urlPath : GoString) : Response :=
  let urlPath := handleRoot urlPath
  let sourcePath := Join [config.Source, urlPath]
  if (Stat fs sourcePath).isSome then
    if HasSuffix urlPath (ascii ".html") then
      match ReadFile fs sourcePath with
      | none => Response.error (ascii "File not found") 404
      | some content =>
        Response.write
          [(ascii "Content-Type", ascii "text/html"), (ascii "Cache-Control", ascii "no-cache")]
          (injectLiveReload config.Port content)
    else Response.serveFile [] urlPath sourcePath
  else
    let assetsPath := Join [config.Assets, TrimPrefix urlPath (ascii "/assets/")]
    if (Stat fs assetsPath).isSome then
      Response.serveFile [(ascii "Cache-Control", ascii "no-cache")] urlPath assetsPath
    else Response.error (ascii "File not found") 404


/-! ## Concrete states used below -/

/-- A source tree holding `index.html` with the body `<body>Hi</body>`. -/
def fsIndex : FS :=
  [([ascii "src"], Entry.dir),
   ([ascii "src", ascii "index.html"], Entry.file (ascii "<body>Hi</body>") true)]

/-- A project whose source tree has an `assets/css/style.css` of its own. -/
def fsShadow : FS :=
  [([ascii "src"], Entry.dir),
   ([ascii "src", ascii "assets"], Entry.dir),
   ([ascii "src", ascii "assets", ascii "css"], Entry.dir),
   ([ascii "src", ascii "assets", ascii "css", ascii "style.css"], Entry.file (ascii "a") true),
   ([ascii "assets"], Entry.dir),
   ([ascii "assets", ascii "css"], Entry.dir),
   ([ascii "assets", ascii "css", ascii "style.css"], Entry.file (ascii "b") true)]

/-- A project with the file `secret.html` next to the source directory. -/
def fsSecret : FS :=
  [([ascii "src"], Entry.dir),
   ([ascii "src", ascii "index.html"], Entry.file (ascii "<body>Hi</body>") true),
   ([ascii "secret.html"], Entry.file (ascii "<body>key</body>") true)]

/-- A project with only an assets directory beside the source directory. -/
def fsAssets : FS :=
  [([ascii "src"], Entry.dir),
   ([ascii "assets"], Entry.dir),
   ([ascii "assets", ascii "css"], Entry.dir),
   ([ascii "assets", ascii "css", ascii "style.css"], Entry.file (ascii "b") true)]

/-- An element that `Clean` keeps as it is: neither empty nor `.`. -/
def keptElement (seg : GoString) : Bool := !(seg == []) && !(seg == dot)

/-! ## The file watcher: debouncing -/

/-- The constant `time.Millisecond`; a `time.Duration` counts nanoseconds. -/
def Millisecond : Int := 1000000

/-- The largest `time.Duration`. -/
def maxDuration : Int := 2 ^ 63 - 1

/-- The smallest `time.Duration`. -/
def minDuration : Int := -(2 ^ 63)

/-- A `time.Time`: the wall clock in nanoseconds since the Unix epoch and,
for a value read with `time.Now`, the monotonic clock reading. -/
structure Time where
  wall : Int
  mono : Option Int
deriving DecidableEq, Repr

/-- The zero `time.Time`, January 1 of year 1: the initial `lastEvent`. -/
def zeroTime : Time := ⟨-62135596800 * 1000000000, none⟩

/-- A value of `time.Now()`: the system clock, not before the Unix epoch, and
the monotonic clock. -/
def Now (unixNano : Nat) (mono : Int) : Time := ⟨(unixNano : Int), some mono⟩

/-- A difference that does not fit a `Duration` is replaced by the nearest
bound. -/
def saturate (d : Int) : Int :=
  if d > maxDuration then maxDuration else if d < minDuration then minDuration else d

/-- Go `t.Sub(u)`: on the monotonic clock when both values carry a reading, on
the wall clock otherwise. -/
def Time.Sub (t u : Time) : Int :=
  match t.mono, u.mono with
  | some a, some b => saturate (a - b)
  | _, _ => saturate (t.wall - u.wall)

/-- The bit `fsnotify.Write` of an `fsnotify.Op`. -/
def fsnotifyWrite : Nat := 2

/-- An `fsnotify.Event`. -/
structure Event where
  Name : GoString
  Op : Nat
deriving DecidableEq, Repr

/-- What the `select` of the watcher loop receives: an event together with
the value `time.Now()` has while it is handled, an error, or the closing of
one of the two channels. -/
inductive WatchMsg where
  | event (e : Event) (unixNano : Nat) (mono : Int)
  | eventsClosed
  | error
  | errorsClosed
deriving DecidableEq, Repr

/-- One event in the loop of `startFileWatcher`: whether `notifyClients` is
called, and the new `lastEvent`. -/
def watchEvent (lastEvent : Time) (event : Event) (now : Time) : Bool × Time :=
  if event.Op &&& fsnotifyWrite = fsnotifyWrite then
    if now.Sub lastEvent > 100 * Millisecond then (true, now) else (false, lastEvent)
  else (false, lastEvent)

/-- The loop of `startFileWatcher` from a given `lastEvent`: for each message
handled, whether `notifyClients` was called; the loop returns when a channel
is closed. -/
def watchLoop : Time → List WatchMsg → List Bool
  | _, [] => []
  | lastEvent, WatchMsg.event e unixNano mono :: rest =>
    let r := watchEvent lastEvent e (Now unixNano mono)
    r.1 :: watchLoop r.2 rest
  | _, WatchMsg.eventsClosed :: _ => []
  | lastEvent, WatchMsg.error :: rest => false :: watchLoop lastEvent rest
  | _, WatchMsg.errorsClosed :: _ => []

/-- The function `startFileWatcher` once the watcher is set up: `lastEvent`
starts as the zero time and the loop runs on the messages received. -/
def startFileWatcher (msgs : List WatchMsg) : List Bool := watchLoop zeroTime msgs

/-- The messages of a run of events, given the two clock readings at each. -/
def eventMsgs (events : List (Event × Nat × Int)) : List WatchMsg :=
  events.map (fun x => WatchMsg.event x.1 x.2.1 x.2.2)

/-! ## The reload hub -/

/-- A live-reload session, `*websocket.Conn`. -/
abbrev Conn := Nat

/-- The constant `websocket.TextMessage`. -/
def TextMessage : Nat := 1

/-- The registry `clients` (its keys, in the order a `range` visits them) with
a record of the messages written and the connections closed. -/
structure Hub where
  clients : List Conn
  written : List (Conn × Nat × GoString)
  closed : List Conn
deriving DecidableEq, Repr

/-- The body of the loop of `notifyClients` for one client; `writeFails c`
tells whether `WriteMessage` on `c` returns an error. -/
def notifyOne (writeFails : Conn → Bool) (st : Hub) (client : Conn) : Hub :=
  let st := { st with written := st.written ++ [(client, TextMessage, ascii "reload")] }
  if writeFails client then
    { st with closed := st.closed ++ [client], clients := st.clients.erase client }
  else st

/-- The function `notifyClients`: the loop over the registry. -/
def notifyClients (writeFails : Conn → Bool) (hub : Hub) : Hub :=
  hub.clients.foldl (notifyOne writeFails) hub

/-- Three write events within 100ms of the first. -/
def burstEvents : List (Event × Nat × Int) :=
  [(⟨ascii "src/index.html", 2⟩, 1700000000000000000, 5),
   (⟨ascii "src/index.html", 2⟩, 1700000000020000000, 20000005),
   (⟨ascii "src/app.js", 18⟩, 1700000000100000000, 100000005)]

/-- Three write events, each more than 100ms after the one before. -/
def gapEvents : List (Event × Nat × Int) :=
  [(⟨ascii "src/index.html", 2⟩, 1700000000000000000, 5),
   (⟨ascii "src/index.html", 2⟩, 1700000000100000001, 100000006),
   (⟨ascii "src/app.js", 18⟩, 1700000000300000000, 300000000)]
/-! ## The build pipeline -/

/-- The errors of the file system calls. -/
inductive Errno where
  | ENOENT
  | ENOTDIR
  | EISDIR
  | EACCES
  | EEXIST
  | EINVAL
  | ENOTEMPTY
deriving DecidableEq, Repr

/-- The calls that the build makes on the file system. -/
inductive Call where
  | stat
  | openRead
  | readdir
  | mkdir
  | create
  | remove
deriving DecidableEq, Repr

/-- What the system refuses for a reason that the table does not record (the
mode of a directory, the owner of a file, the space that is left): `deny c p`
says that the call `c` on the path `p` fails. The mode that `copyDir` hands to
`os.MkdirAll` acts through it: what is later created inside a directory made
read-only is a call that the system denies. -/
abbrev Deny := Call → Path → Bool

/-- The system that refuses nothing. -/
def allowAll : Deny := fun _ _ => false

/-- The destination of a copy. It is used through `filepath.Join(dst, rel)`
only, which cleans it and takes the empty string for no element at all. -/
def fileName (s : GoString) : Option Path :=
  if s = [] then none else some (Clean s)

/-- Put an entry at a path, replacing what was there. -/
def setEntry (fs : FS) (p : Path) (e : Entry) : FS :=
  (p, e) :: fs.filter (fun kv => !(kv.1 == p))

/-- The path that a stack of elements, last one first, stands for. -/
def stackPath (rooted : Bool) (stk : List GoString) : Path :=
  (if rooted then [[]] else []) ++ stk.reverse

/-- The system resolving a name element by element, from the stack reached so
far: an empty element is skipped; any other element is looked up in the path
reached, which has to be a directory at that moment; `.` stays there, `..`
goes to the parent, a name goes down. The last element need not exist. -/
def resolveFrom (fs : FS) (rooted : Bool) :
    List GoString → List GoString → Except Errno (List GoString)
  | [], stk => Except.ok stk
  | seg :: rest, stk =>
    if seg = [] then resolveFrom fs rooted rest stk
    else
      match statPath fs (stackPath rooted stk) with
      | some Entry.dir => resolveFrom fs rooted rest (cleanStep rooted stk seg)
      | some (Entry.file _ _) => Except.error Errno.ENOTDIR
      | none => Except.error Errno.ENOENT

/-- The stack that the resolution of a name starts from: the root for a name
that begins with a slash, else the working directory, which lies at the
elements `cwd` below the root. -/
def startStack (cwd : List GoString) (name : GoString) : List GoString :=
  if name.head? == some 47 then [] else cwd.reverse

/-- The absolute path that a name stands for when it is read lexically from
the working directory: what `filepath.Clean` gives, placed under `cwd`. -/
def sysPath (cwd : List GoString) (name : GoString) : Path :=
  stackPath true ((splitSlash name).foldl (cleanStep true) (startStack cwd name))

/-- The absolute path of a cleaned name, as `filepath.Join` gives it. -/
def absPath (cwd : List GoString) (p : Path) : Path :=
  if p.head? == some [] then p else stackPath true (p.foldl (cleanStep true) cwd.reverse)

/-- The absolute path that the system resolves a name to, as the name stands
in a Go string handed to a system call. The empty string names nothing. -/
def resolve (cwd : List GoString) (fs : FS) (name : GoString) : Except Errno Path :=
  if name = [] then Except.error Errno.ENOENT
  else
    match resolveFrom fs true (splitSlash name) (startStack cwd name) with
    | Except.ok stk => Except.ok (stackPath true stk)
    | Except.error e => Except.error e

/-- Go `os.Lstat` on a name: `some` when `err == nil`. A regular file is not
found under a name that ends in a slash. With no symbolic links in the table
this is `os.Stat` as well. -/
def Lstat (deny : Deny) (cwd : List GoString) (fs : FS) (name : GoString) : Option Entry :=
  match resolve cwd fs name with
  | Except.error _ => none
  | Except.ok p =>
    if deny Call.stat p then none
    else
      match statPath fs p with
      | some (Entry.file content readable) =>
        if name.getLast? = some 47 then none else some (Entry.file content readable)
      | r => r

/-- Go `os.Lstat` on a cleaned name, as `filepath.Join` gives it. -/
def lstatPath (deny : Deny) (fs : FS) (p : Path) : Option Entry :=
  if deny Call.stat p then none else statPath fs p

/-- The test `endsWithDot` of `os.RemoveAll`. -/
def endsWithDot (path : GoString) : Bool :=
  path == [46] || (path.reverse.take 2 == [46, 47])

/-- The last element of a name, empty elements aside, is `.` or `..`: the
system refuses to remove a directory under such a name. -/
def lastIsDots (name : GoString) : Bool :=
  match ((splitSlash name).filter (fun seg => !(seg == []))).getLast? with
  | some seg => seg == dot || seg == dotdot
  | none => false

/-- The entry `k` lies at or below `p`. -/
def below (p k : Path) : Bool := p.isPrefixOf k

/-- Go `os.RemoveAll`: nothing for the empty string, an error for a name that
ends in a `.` element; a name that does not resolve to an existing entry
removes nothing (and is no error when an element is missing); else the entry
and everything below it is removed, except the entries whose removal the
system denies and the directories above them, and except the directory itself
when the name ends in `..` (or in `.` followed by a slash). -/
def RemoveAll (deny : Deny) (cwd : List GoString) (path : GoString) (fs : FS) :
    FS × Option Errno :=
  if path = [] then (fs, none)
  else if endsWithDot path then (fs, some Errno.EINVAL)
  else
    match resolve cwd fs path with
    | Except.error Errno.ENOENT => (fs, none)
    | Except.error e => (fs, some e)
    | Except.ok p =>
      match statPath fs p with
      | none => (fs, none)
      | some _ =>
        (fs.filter (fun kv =>
            !(below p kv.1) || (kv.1 == p && lastIsDots path) ||
              fs.any (fun kv1 => below p kv1.1 && kv.1.isPrefixOf kv1.1 &&
                deny Call.remove kv1.1)),
          if fs.any (fun kv1 => below p kv1.1 && deny Call.remove kv1.1) then some Errno.EACCES
          else if lastIsDots path then some Errno.ENOTEMPTY
          else none)

/-- Go `os.Mkdir`: the parent must be a directory and the path must be new. -/
def Mkdir (deny : Deny) (p : Path) (fs : FS) : FS × Option Errno :=
  if deny Call.mkdir p then (fs, some Errno.EACCES)
  else
    match statPath fs p with
    | some _ => (fs, some Errno.EEXIST)
    | none =>
      match statPath fs p.dropLast with
      | some Entry.dir => ((p, Entry.dir) :: fs, none)
      | some (Entry.file _ _) => (fs, some Errno.ENOTDIR)
      | none => (fs, some Errno.ENOENT)

/-- The recursion of `os.MkdirAll`, on the path with its last element first:
an existing directory is a success, an existing file an error, otherwise the
parent is made first and then the directory itself. The recursion ends at the
root, which exists. (The second look at the path after a failed
`Mkdir` finds a directory only for names like `foo/.`, which a cleaned path is
not.) -/
def mkdirAllRev (deny : Deny) (fs : FS) : List GoString → FS × Option Errno
  | [] => (fs, none)
  | last :: parentRev =>
    match lstatPath deny fs (last :: parentRev).reverse with
    | some Entry.dir => (fs, none)
    | some (Entry.file _ _) => (fs, some Errno.ENOTDIR)
    | none =>
      match mkdirAllRev deny fs parentRev with
      | (fs1, some e) => (fs1, some e)
      | (fs1, none) => Mkdir deny (last :: parentRev).reverse fs1

/-- Go `os.MkdirAll`. The mode is not kept in the table (see `Deny`). -/
def MkdirAll (deny : Deny) (p : Path) (fs : FS) : FS × Option Errno :=
  mkdirAllRev deny fs p.reverse

/-- The function `copyFile`: open the source (a directory can be opened too),
make the parent directory of the destination (its error is dropped), create
or truncate the destination, then copy what the source holds at that time;
reading a directory fails. -/
def copyFile (deny : Deny) (src dst : Path) (fs : FS) : FS × Option Errno :=
  if deny Call.openRead src then (fs, some Errno.EACCES)
  else
    match statPath fs src with
    | none => (fs, some Errno.ENOENT)
    | some (Entry.file _ false) => (fs, some Errno.EACCES)
    | some _ =>
      let fs1 := (MkdirAll deny dst.dropLast fs).1
      if deny Call.create dst then (fs1, some Errno.EACCES)
      else
        match statPath fs1 dst with
        | some Entry.dir => (fs1, some Errno.EISDIR)
        | some (Entry.file _ false) => (fs1, some Errno.EACCES)
        | _ =>
          match statPath fs1 dst.dropLast with
          | none => (fs1, some Errno.ENOENT)
          | some (Entry.file _ _) => (fs1, some Errno.ENOTDIR)
          | some Entry.dir =>
            let fs2 := setEntry fs1 dst (Entry.file [] true)
            match statPath fs2 src with
            | some (Entry.file content _) => (setEntry fs2 dst (Entry.file content true), none)
            | _ => (fs2, some Errno.EISDIR)

/-- Byte-wise lexical order of names, the order `filepath.Walk` visits a
directory in. -/
def nameLE : GoString → GoString → Bool
  | [], _ => true
  | _ :: _, [] => false
  | a :: as, b :: bs => decide (a < b) || (a == b && nameLE as bs)

/-- The name of `k` inside the directory `p`, when `k` is an entry of `p`. -/
def childName (p k : Path) : Option GoString :=
  match k.drop p.length with
  | [n] => if p.isPrefixOf k then some n else none
  | _ => none

/-- The names in a directory, sorted (`readDirNames` of `path/filepath`). -/
def readDirNames (fs : FS) (p : Path) : List GoString :=
  ((fs.filterMap (fun kv => childName p kv.1)).dedup).insertionSort (fun a b => nameLE a b = true)

/-- Go `filepath.Rel(src, path)` for a path the walk of `src` reaches. -/
def Rel (src path : Path) : Option Path :=
  if src.isPrefixOf path then some (path.drop src.length) else none

/-- The callback of `copyDir`, called without an error: a directory is made at
the destination (with the mode of the source directory, see `Deny`), a file is
copied there. -/
def copyEntry (deny : Deny) (src dst : Path) (path : Path) (info : Entry) (fs : FS) :
    FS × Option Errno :=
  match Rel src path with
  | none => (fs, some Errno.EINVAL)
  | some relPath =>
    let dstPath := dst ++ relPath
    match info with
    | Entry.dir => MkdirAll deny dstPath fs
    | Entry.file _ _ => copyFile deny path dstPath fs

/-- The loop of `filepath.walk` over the names of a directory. A name that
cannot be looked up is reported to the callback, which returns the error. -/
def walkNames (deny : Deny) (walkRec : Path → Entry → FS → Option (FS × Option Errno))
    (path : Path) : List GoString → FS → Option (FS × Option Errno)
  | [], fs => some (fs, none)
  | name :: names, fs =>
    match lstatPath deny fs (path ++ [name]) with
    | none => some (fs, some Errno.ENOENT)
    | some fileInfo =>
      match walkRec (path ++ [name]) fileInfo fs with
      | none => none
      | some (fs1, some e) => some (fs1, some e)
      | some (fs1, none) => walkNames deny walkRec path names fs1

/-- The function `walk` of `path/filepath` with the callback `fn`: a file is
handed to the callback; for a directory the names are read, the callback is
called, and then each name is walked. When the names cannot be read the
callback is called with that error, which the callback of `copyDir` returns
at once. It never asks to skip, so that case is left out. `none`: the fuel ran
out. -/
def walk (deny : Deny) (fn : Path → Entry → FS → FS × Option Errno) :
    Nat → Path → Entry → FS → Option (FS × Option Errno)
  | 0, _, _, _ => none
  | fuel + 1, path, info, fs =>
    match info with
    | Entry.file _ _ => some (fn path info fs)
    | Entry.dir =>
      if deny Call.readdir path then some (fs, some Errno.EACCES)
      else
        let names := readDirNames fs path
        match fn path info fs with
        | (fs1, some e) => some (fs1, some e)
        | (fs1, none) => walkNames deny (walk deny fn fuel) path names fs1

/-- The function `copyDir`: `filepath.Walk` from `src` with the copying
callback. The root is looked up under the name as given; a name that resolves
resolves to the path that its cleaned form stands for, and `filepath.Join` and
`filepath.Rel` work with cleaned names from there on. The destination is used
through `filepath.Join(dst, relPath)` only. -/
def copyDir (deny : Deny) (cwd : List GoString) (fuel : Nat) (src : GoString)
    (dst : Option Path) (fs : FS) : Option (FS × Option Errno) :=
  match Lstat deny cwd fs src with
  | none => some (fs, some Errno.ENOENT)
  | some info =>
    walk deny (copyEntry deny (sysPath cwd src) (absPath cwd (dst.getD []))) fuel
      (sysPath cwd src) info fs

/-- How `handleBuild` ends: the build is reported complete, or `log.Fatal`
stops it; either way with the file system it leaves. -/
inductive BuildResult where
  | completed (fs : FS)
  | fatal (fs : FS) (err : Errno)
deriving DecidableEq, Repr

/-- The function `handleBuild` for a loaded configuration, run in the working
directory `cwd`. -/
def handleBuild (deny : Deny) (cwd : List GoString) (fuel : Nat) (config : Config) (fs : FS) :
    Option BuildResult :=
  let cleaned := (RemoveAll deny cwd config.Build fs).1
  match copyDir deny cwd fuel config.Source (fileName config.Build) cleaned with
  | none => none
  | some (fs1, some e) => some (BuildResult.fatal fs1 e)
  | some (fs1, none) =>
    if (Lstat deny cwd fs1 config.Assets).isSome then
      let assetsDestination := Join [config.Build, ascii "assets"]
      match copyDir deny cwd fuel config.Assets assetsDestination fs1 with
      | none => none
      | some (fs2, some e) => some (BuildResult.fatal fs2 e)
      | some (fs2, none) => some (BuildResult.completed fs2)
    else some (BuildResult.completed fs1)
/-- A project with a source tree, an assets tree and an old build. -/
def fsProject : FS :=
  [([ascii "src"], Entry.dir),
   ([ascii "src", ascii "index.html"], Entry.file (ascii "<body>Hi</body>") true),
   ([ascii "src", ascii "js"], Entry.dir),
   ([ascii "src", ascii "js", ascii "app.js"], Entry.file (ascii "run()") true),
   ([ascii "assets"], Entry.dir),
   ([ascii "assets", ascii "css"], Entry.dir),
   ([ascii "assets", ascii "css", ascii "style.css"], Entry.file (ascii "b") true),
   ([ascii "dist"], Entry.dir),
   ([ascii "dist", ascii "old.txt"], Entry.file (ascii "old") true)]

/-- A project whose source tree has a directory `assets` of its own. -/
def fsOverlay : FS :=
  [([ascii "src"], Entry.dir),
   ([ascii "src", ascii "assets"], Entry.dir),
   ([ascii "src", ascii "assets", ascii "a.txt"], Entry.file (ascii "a") true),
   ([ascii "assets"], Entry.dir),
   ([ascii "assets", ascii "b.txt"], Entry.file (ascii "b") true)]

/-- The same project without the assets directory. -/
def fsNoAssets : FS :=
  [([ascii "src"], Entry.dir),
   ([ascii "src", ascii "assets"], Entry.dir),
   ([ascii "src", ascii "assets", ascii "a.txt"], Entry.file (ascii "a") true)]

/-- The working directory of the examples, `/w`. -/
def home : List GoString := [ascii "w"]

/-- The table of a project that lies in the working directory `/w`: the paths
of `fs` under `/w`, and the directory `/w` itself. -/
def atHome (fs : FS) : FS :=
  fs.map (fun kv => ([] :: ascii "w" :: kv.1, kv.2)) ++ [([[], ascii "w"], Entry.dir)]

/-- The two paths that always exist: the working directory and the root. -/
def implicitDir (p : Path) : Prop := p = [] ∨ p = [[]]

/-- Every entry of the table lies in a directory, and the two paths that
always exist are not entries. -/
def wellFormed (fs : FS) : Bool :=
  fs.all (fun kv => statPath fs kv.1.dropLast == some Entry.dir && !(kv.1 == []) &&
    !(kv.1 == [[]]))

/-- What copying makes of an entry: a directory, or a readable file with the
same bytes. -/
def copyOf : Entry → Entry
  | Entry.dir => Entry.dir
  | Entry.file content _ => Entry.file content true

/-- What the build leaves of `fsProject`. -/
def fsProjectBuilt : FS :=
  [([ascii "dist", ascii "assets", ascii "css", ascii "style.css"], Entry.file (ascii "b") true),
   ([ascii "dist", ascii "assets", ascii "css"], Entry.dir),
   ([ascii "dist", ascii "assets"], Entry.dir),
   ([ascii "dist", ascii "js", ascii "app.js"], Entry.file (ascii "run()") true),
   ([ascii "dist", ascii "js"], Entry.dir),
   ([ascii "dist", ascii "index.html"], Entry.file (ascii "<body>Hi</body>") true),
   ([ascii "dist"], Entry.dir),
   ([ascii "src"], Entry.dir),
   ([ascii "src", ascii "index.html"], Entry.file (ascii "<body>Hi</body>") true),
   ([ascii "src", ascii "js"], Entry.dir),
   ([ascii "src", ascii "js", ascii "app.js"], Entry.file (ascii "run()") true),
   ([ascii "assets"], Entry.dir),
   ([ascii "assets", ascii "css"], Entry.dir),
   ([ascii "assets", ascii "css", ascii "style.css"], Entry.file (ascii "b") true)]

/-- What the build leaves of `fsOverlay`. -/
def fsOverlayBuilt : FS :=
  [([ascii "dist", ascii "assets", ascii "b.txt"], Entry.file (ascii "b") true),
   ([ascii "dist", ascii "assets", ascii "a.txt"], Entry.file (ascii "a") true),
   ([ascii "dist", ascii "assets"], Entry.dir),
   ([ascii "dist"], Entry.dir),
   ([ascii "src"], Entry.dir),
   ([ascii "src", ascii "assets"], Entry.dir),
   ([ascii "src", ascii "assets", ascii "a.txt"], Entry.file (ascii "a") true),
   ([ascii "assets"], Entry.dir),
   ([ascii "assets", ascii "b.txt"], Entry.file (ascii "b") true)]

/-- What the build leaves of `fsNoAssets`. -/
def fsNoAssetsBuilt : FS :=
  [([ascii "dist", ascii "assets", ascii "a.txt"], Entry.file (ascii "a") true),
   ([ascii "dist", ascii "assets"], Entry.dir),
   ([ascii "dist"], Entry.dir),
   ([ascii "src"], Entry.dir),
   ([ascii "src", ascii "assets"], Entry.dir),
   ([ascii "src", ascii "assets", ascii "a.txt"], Entry.file (ascii "a") true)]

/-- A system in which nothing can be made or removed inside the directory `d`:
what a read-only mode of `d` is for a process that does not own the system. -/
def denyInside (d : Path) : Deny :=
  fun c p => (c == Call.mkdir || c == Call.create || c == Call.remove) && p.dropLast == d

/-- A project whose source tree has a directory `ro` with a file in it. -/
def fsReadOnly : FS :=
  [([ascii "src"], Entry.dir),
   ([ascii "src", ascii "ro"], Entry.dir),
   ([ascii "src", ascii "ro", ascii "a.txt"], Entry.file (ascii "a") true)]

/-- What the build leaves of `fsReadOnly` when `dist/ro` is read-only. -/
def fsReadOnlyBuilt : FS :=
  [([ascii "dist", ascii "ro"], Entry.dir),
   ([ascii "dist"], Entry.dir),
   ([ascii "src"], Entry.dir),
   ([ascii "src", ascii "ro"], Entry.dir),
   ([ascii "src", ascii "ro", ascii "a.txt"], Entry.file (ascii "a") true)]

/-- In the tree under `S`, whatever has an entry below it is a directory. -/
def DirClosed (S : Path) (fs : FS) : Prop :=
  ∀ x n, statPath fs (S ++ x ++ [n]) ≠ none → statPath fs (S ++ x) = some Entry.dir

/-- The effect of walking the subtree `S/rel` into `D/rel`, from `fs` to
`fs'`: entries outside `D/rel` stay; every entry of the subtree has its copy;
and every entry of `fs'` was there before, is such a copy, or is a directory
above `D/rel`. -/
def WalkSpec (S D rel : Path) (fs fs' : FS) : Prop :=
  (∀ q e, ¬ (D ++ rel) <+: q → statPath fs q = some e → statPath fs' q = some e) ∧
  (∀ r e, statPath fs (S ++ rel ++ r) = some e →
    statPath fs' (D ++ rel ++ r) = some (copyOf e)) ∧
  (∀ q e, statPath fs' q = some e →
    statPath fs q = some e ∨
    (∃ r e0, q = D ++ rel ++ r ∧ statPath fs (S ++ rel ++ r) = some e0 ∧ e = copyOf e0) ∨
    (q <+: D ++ rel ∧ q ≠ D ++ rel ∧ e = Entry.dir))

/-- The effect of walking the entries `ns` of the directory `S/rel`. -/
def NamesSpec (S D rel : Path) (ns : List GoString) (fs fs' : FS) : Prop :=
  (∀ q e, (∀ m ∈ ns, ¬ (D ++ rel ++ [m]) <+: q) → statPath fs q = some e →
    statPath fs' q = some e) ∧
  (∀ m ∈ ns, ∀ r e, statPath fs (S ++ rel ++ m :: r) = some e →
    statPath fs' (D ++ rel ++ m :: r) = some (copyOf e)) ∧
  (∀ q e, statPath fs' q = some e →
    statPath fs q = some e ∨
    (∃ m ∈ ns, ∃ r e0, q = D ++ rel ++ m :: r ∧ statPath fs (S ++ rel ++ m :: r) = some e0 ∧
      e = copyOf e0) ∨
    (q <+: D ++ rel ∧ e = Entry.dir))

/-- The length of the longest path of the table. -/
def depth : FS → Nat
  | [] => 0
  | kv :: fs => max kv.1.length (depth fs)

/-- Every entry lies in a directory, in terms of lookups. -/
def ParentClosed (fs : FS) : Prop :=
  ∀ q n, statPath fs (q ++ [n]) ≠ none → statPath fs q = some Entry.dir

theorem lastIndexFrom_none (s substr : GoString) (k : Nat)
    (h : ∀ j, j ≤ k → ¬ substr <+: s.drop j) : lastIndexFrom s substr k = -1 := by
  induction k with
  | zero =>
    have h0 := h 0 (le_refl 0)
    simp only [List.drop_zero] at h0
    simp [lastIndexFrom, h0]
  | succ k ih =>
    have hk := h (k + 1) (le_refl _)
    simp only [lastIndexFrom, List.isPrefixOf_iff_prefix, hk, if_false]
    exact ih (fun j hj => h j (Nat.le_succ_of_le hj))

theorem lastIndexFrom_some (s substr : GoString) (k i : Nat) (hik : i ≤ k)
    (hi : substr <+: s.drop i) (hlast : ∀ j, i < j → j ≤ k → ¬ substr <+: s.drop j) :
    lastIndexFrom s substr k = (i : Int) := by
  induction k with
  | zero =>
    obtain rfl : i = 0 := Nat.le_zero.mp hik
    simp only [List.drop_zero] at hi
    simp [lastIndexFrom, hi]
  | succ k ih =>
    rcases Nat.lt_or_ge i (k + 1) with hlt | hge
    · have hk := hlast (k + 1) hlt (le_refl _)
      simp only [lastIndexFrom, List.isPrefixOf_iff_prefix, hk, if_false]
      exact ih (Nat.lt_succ_iff.mp hlt) (fun j h1 h2 => hlast j h1 (Nat.le_succ_of_le h2))
    · obtain rfl : i = k + 1 := le_antisymm hik hge
      simp [lastIndexFrom, hi]

theorem prefix_drop_bound (s substr : GoString) (j : Nat) (h : substr <+: s.drop j) :
    j + substr.length ≤ s.length ∨ substr = [] := by
  have hl := h.length_le
  simp only [List.length_drop] at hl
  rcases Nat.eq_zero_or_pos substr.length with h0 | hpos
  · right; exact List.length_eq_zero.mp h0
  · left; omega

/-- The scan result when the substring is absent. -/
theorem LastIndex_absent (s substr : GoString) (hne : substr ≠ [])
    (h : ∀ j, ¬ substr <+: s.drop j) : LastIndex s substr = -1 := by
  unfold LastIndex
  have hlen : substr.length ≠ 0 := fun h0 => hne (List.length_eq_zero.mp h0)
  simp only [hlen, if_false]
  split
  · rfl
  · exact lastIndexFrom_none _ _ _ (fun j _ => h j)

/-- The scan result when `i` is the last place the substring occurs. -/
theorem LastIndex_last (s substr : GoString) (hne : substr ≠ []) (i : Nat)
    (hi : substr <+: s.drop i) (hlast : ∀ j, substr <+: s.drop j → j ≤ i) :
    LastIndex s substr = (i : Int) := by
  unfold LastIndex
  have hlen : substr.length ≠ 0 := fun h0 => hne (List.length_eq_zero.mp h0)
  have hb : i + substr.length ≤ s.length := by
    rcases prefix_drop_bound s substr i hi with h | h
    · exact h
    · exact absurd h hne
  have h2 : ¬ s.length < substr.length := by omega
  simp only [hlen, h2, if_false]
  apply lastIndexFrom_some
  · omega
  · exact hi
  · intro j hij _ hj
    have := hlast j hj
    omega

/-- Among the places where a substring occurs there is a last one. -/
theorem exists_last_occurrence (s substr : GoString) (hne : substr ≠ [])
    (h : ∃ j, substr <+: s.drop j) :
    ∃ i, substr <+: s.drop i ∧ ∀ j, substr <+: s.drop j → j ≤ i := by
  classical
  obtain ⟨j0, hj0⟩ := h
  have hbound : ∀ j, substr <+: s.drop j → j ≤ s.length := by
    intro j hj
    rcases prefix_drop_bound s substr j hj with h | h
    · omega
    · exact absurd h hne
  have hex : ∃ d, substr <+: s.drop (s.length - d) := ⟨s.length - j0, by
    have := hbound j0 hj0
    have e : s.length - (s.length - j0) = j0 := by omega
    rw [e]; exact hj0⟩
  refine ⟨s.length - Nat.find hex, Nat.find_spec hex, ?_⟩
  intro j hj
  have hjb := hbound j hj
  have hmin : Nat.find hex ≤ s.length - j := by
    apply Nat.find_min'
    have e : s.length - (s.length - j) = j := by omega
    rw [e]; exact hj
  omega

theorem closingBody_ne_nil : closingBody ≠ [] := by decide

/-- The splice, described by the last occurrence of the closing tag. -/
theorem injectLiveReload_spec (port : Int) (s : GoString) :
    ((∃ j, closingBody <+: s.drop j) →
      ∃ i, closingBody <+: s.drop i ∧ (∀ j, closingBody <+: s.drop j → j ≤ i) ∧
        injectLiveReload port s = s.take i ++ liveReloadScript port ++ s.drop i ∧
        (injectLiveReload port s).take i ++
          (injectLiveReload port s).drop (i + (liveReloadScript port).length) = s) ∧
    ((¬ ∃ j, closingBody <+: s.drop j) → injectLiveReload port s = s) := by
  constructor
  · intro h
    obtain ⟨i, hi, hlast⟩ := exists_last_occurrence s closingBody closingBody_ne_nil h
    have hL := LastIndex_last s closingBody closingBody_ne_nil i hi hlast
    have hb : i ≤ s.length := by
      rcases prefix_drop_bound s closingBody i hi with h | h
      · omega
      · exact absurd h closingBody_ne_nil
    have hinj : injectLiveReload port s = s.take i ++ liveReloadScript port ++ s.drop i := by
      unfold injectLiveReload
      simp only [hL]
      have : ((i : Int) ≠ -1) := by omega
      simp [this]
    refine ⟨i, hi, hlast, hinj, ?_⟩
    rw [hinj]
    have hti : (s.take i).length = i := by simp [List.length_take, hb]
    have e1 : (s.take i ++ liveReloadScript port ++ s.drop i).take i = s.take i := by
      rw [List.append_assoc, List.take_append_eq_append_take]
      simp [hti]
    have e2 : (s.take i ++ liveReloadScript port ++ s.drop i).drop
        (i + (liveReloadScript port).length) = s.drop i := by
      have : (s.take i ++ liveReloadScript port).length = i + (liveReloadScript port).length := by
        simp [hti]
      rw [← this, List.drop_left]
    rw [e1, e2, List.take_append_drop]
  · intro h
    have hL := LastIndex_absent s closingBody closingBody_ne_nil (fun j hj => h ⟨j, hj⟩)
    unfold injectLiveReload
    simp [hL]


/-! ## Properties: the development server -/

theorem Stat_of_ReadFile (fs : FS) (name : Option Path) (s : GoString)
    (h : ReadFile fs name = some s) : (Stat fs name).isSome = true := by
  unfold ReadFile at h
  split at h
  · rename_i h1; simp [h1]
  · exact absurd h (by simp)

/-- C1. When an existing `.html` source file is read, the body written is the
file content with the script block placed right before the last `</body>`,
so that cutting the block out gives the content back; without a `</body>` the
body is the content unchanged. The block is the `<script>` element that opens
a WebSocket to `/ws` on the configured port and reloads the page on the
message `reload`. -/
theorem serve_html_injection (config : Config) (fs : FS) (urlPath s : GoString)
    (hsuffix : HasSuffix (handleRoot urlPath) (ascii ".html") = true)
    (hread : ReadFile fs (Join [config.Source, handleRoot urlPath]) = some s) :
    ∃ body, serveDevelopmentFiles config fs urlPath =
        Response.write [(ascii "Content-Type", ascii "text/html"),
          (ascii "Cache-Control", ascii "no-cache")] body ∧
      liveReloadScript config.Port =
        ascii "\n<script>\n    const ws = new WebSocket(\x27ws://localhost:" ++ fmtInt config.Port ++
        ascii "/ws\x27);\n    ws.onmessage = function(event) \x7b\n        if (event.data === \x27reload\x27) \x7b\n            location.reload();\n        \x7d\n    \x7d;\n</script>" ∧
      ((∃ j, closingBody <+: s.drop j) →
        ∃ i, closingBody <+: s.drop i ∧ (∀ j, closingBody <+: s.drop j → j ≤ i) ∧
          body = s.take i ++ liveReloadScript config.Port ++ s.drop i ∧
          body.take i ++ body.drop (i + (liveReloadScript config.Port).length) = s) ∧
      ((¬ ∃ j, closingBody <+: s.drop j) → body = s) := by
  refine ⟨injectLiveReload config.Port s, ?_, rfl, injectLiveReload_spec config.Port s⟩
  have hstat := Stat_of_ReadFile fs _ s hread
  simp only [serveDevelopmentFiles, hstat, hsuffix, hread, if_true]

theorem serve_html_injection_witness :
    HasSuffix (handleRoot (ascii "/")) (ascii ".html") = true ∧
    ReadFile fsIndex (Join [defaultConfig.Source, handleRoot (ascii "/")]) =
      some (ascii "<body>Hi</body>") ∧
    serveDevelopmentFiles defaultConfig fsIndex (ascii "/") =
      Response.write [(ascii "Content-Type", ascii "text/html"),
        (ascii "Cache-Control", ascii "no-cache")]
        (ascii "<body>Hi\n<script>\n    const ws = new WebSocket(\x27ws://localhost:8080/ws\x27);\n    ws.onmessage = function(event) \x7b\n        if (event.data === \x27reload\x27) \x7b\n            location.reload();\n        \x7d\n    \x7d;\n</script></body>") ∧
    ∃ body, serveDevelopmentFiles defaultConfig fsIndex (ascii "/") =
        Response.write [(ascii "Content-Type", ascii "text/html"),
          (ascii "Cache-Control", ascii "no-cache")] body ∧
      liveReloadScript defaultConfig.Port =
        ascii "\n<script>\n    const ws = new WebSocket(\x27ws://localhost:" ++ fmtInt defaultConfig.Port ++
        ascii "/ws\x27);\n    ws.onmessage = function(event) \x7b\n        if (event.data === \x27reload\x27) \x7b\n            location.reload();\n        \x7d\n    \x7d;\n</script>" ∧
      ((∃ j, closingBody <+: (ascii "<body>Hi</body>").drop j) →
        ∃ i, closingBody <+: (ascii "<body>Hi</body>").drop i ∧
          (∀ j, closingBody <+: (ascii "<body>Hi</body>").drop j → j ≤ i) ∧
          body = (ascii "<body>Hi</body>").take i ++ liveReloadScript defaultConfig.Port ++
            (ascii "<body>Hi</body>").drop i ∧
          body.take i ++ body.drop (i + (liveReloadScript defaultConfig.Port).length) =
            ascii "<body>Hi</body>") ∧
      ((¬ ∃ j, closingBody <+: (ascii "<body>Hi</body>").drop j) →
        body = ascii "<body>Hi</body>") :=
  ⟨by decide, by decide, by rfl,
    serve_html_injection defaultConfig fsIndex (ascii "/") (ascii "<body>Hi</body>")
      (by decide) (by decide)⟩

/-- C10. A request for `/` gets the response of a request for `/index.html`,
whatever the configuration and the file system. -/
theorem serve_root_eq_index (config : Config) (fs : FS) :
    serveDevelopmentFiles config fs (ascii "/") =
      serveDevelopmentFiles config fs (ascii "/index.html") := by
  have h1 : handleRoot (ascii "/") = ascii "/index.html" := by decide
  have h2 : handleRoot (ascii "/index.html") = ascii "/index.html" := by decide
  simp only [serveDevelopmentFiles, h1, h2]

/-- C2, as stated, fails: with `src/assets/css/style.css` present, the request
`/assets/css/style.css` is served from the source tree, not from the assets
directory. -/
theorem serve_assets_shadowed :
    serveDevelopmentFiles defaultConfig fsShadow (ascii "/assets/css/style.css") =
      Response.serveFile [] (ascii "/assets/css/style.css")
        (some [ascii "src", ascii "assets", ascii "css", ascii "style.css"]) ∧
    Join [defaultConfig.Assets, ascii "css/style.css"] =
      some [ascii "assets", ascii "css", ascii "style.css"] ∧
    inside (Clean defaultConfig.Source)
      [ascii "src", ascii "assets", ascii "css", ascii "style.css"] = true := by
  decide

/-- C2, amended. A request for `/assets/<p>` is looked up under the source
directory first; when nothing exists there it is resolved against
`assetsDir/<p>`: served from there with caching disabled if that exists,
answered 404 otherwise. -/
theorem serve_assets_fallback (config : Config) (fs : FS) (p : GoString)
    (hsrc : Stat fs (Join [config.Source, ascii "/assets/" ++ p]) = none) :
    serveDevelopmentFiles config fs (ascii "/assets/" ++ p) =
      if (Stat fs (Join [config.Assets, p])).isSome then
        Response.serveFile [(ascii "Cache-Control", ascii "no-cache")]
          (ascii "/assets/" ++ p) (Join [config.Assets, p])
      else Response.error (ascii "File not found") 404 := by
  have hroot : handleRoot (ascii "/assets/" ++ p) = ascii "/assets/" ++ p := by
    unfold handleRoot
    have : ascii "/assets/" ++ p ≠ ascii "/" := by
      intro h
      have := congrArg List.length h
      simp [ascii] at this
    simp [this]
  have htrim : TrimPrefix (ascii "/assets/" ++ p) (ascii "/assets/") = p := by
    have hp : HasPrefix (ascii "/assets/" ++ p) (ascii "/assets/") = true := by
      simp [HasPrefix, List.isPrefixOf_iff_prefix]
    simp only [TrimPrefix, hp, if_true, List.drop_left]
  simp only [serveDevelopmentFiles, hroot, hsrc, htrim]
  simp

theorem serve_assets_fallback_witness :
    Stat fsAssets (Join [defaultConfig.Source, ascii "/assets/" ++ ascii "css/style.css"]) = none ∧
    serveDevelopmentFiles defaultConfig fsAssets (ascii "/assets/" ++ ascii "css/style.css") =
      if (Stat fsAssets (Join [defaultConfig.Assets, ascii "css/style.css"])).isSome then
        Response.serveFile [(ascii "Cache-Control", ascii "no-cache")]
          (ascii "/assets/" ++ ascii "css/style.css")
          (Join [defaultConfig.Assets, ascii "css/style.css"])
      else Response.error (ascii "File not found") 404 :=
  ⟨by decide, serve_assets_fallback defaultConfig fsAssets (ascii "css/style.css") (by decide)⟩

/-! ## Properties: path containment -/

theorem splitSlash_ne_nil (s : GoString) : splitSlash s ≠ [] := by
  cases s with
  | nil => simp [splitSlash]
  | cons c cs =>
    unfold splitSlash
    split
    · simp
    · split <;> simp

theorem splitSlash_append (a b : GoString) :
    splitSlash (a ++ 47 :: b) = splitSlash a ++ splitSlash b := by
  induction a with
  | nil => simp [splitSlash]
  | cons c cs ih =>
    by_cases hc : c = 47
    · simp [splitSlash, hc, ih]
    · simp only [List.cons_append, splitSlash, hc, if_false]
      have ih2 : splitSlash (cs.append (47 :: b)) = splitSlash cs ++ splitSlash b := ih
      rw [ih2]
      cases hsp : splitSlash cs with
      | nil => exact absurd hsp (splitSlash_ne_nil cs)
      | cons seg rest => simp

theorem foldl_cleanStep_plain (rooted : Bool) (segs stk : List GoString)
    (h : dotdot ∉ segs) :
    segs.foldl (cleanStep rooted) stk = (segs.filter keptElement).reverse ++ stk := by
  induction segs generalizing stk with
  | nil => simp
  | cons seg rest ih =>
    have hseg : seg ≠ dotdot := fun e => h (by simp [e])
    have hrest : dotdot ∉ rest := fun e => h (by simp [e])
    rw [List.foldl_cons, ih _ hrest]
    by_cases hk : seg = [] ∨ seg = dot
    · have : keptElement seg = false := by
        rcases hk with rfl | rfl <;> decide
      simp [cleanStep, hk, this]
    · have hk2 : keptElement seg = true := by
        simp only [not_or] at hk
        simp [keptElement, hk.1, hk.2]
      simp [cleanStep, hk, hseg, hk2]

/-- Cleaning `a/b` when `b` has no `..` element: the cleaned `a` followed by
the elements of `b` that are kept. -/
theorem Clean_join_plain (a b : GoString) (ha : a ≠ []) (hb : dotdot ∉ splitSlash b) :
    Clean (a ++ 47 :: b) = Clean a ++ (splitSlash b).filter keptElement := by
  have hhead : (a ++ 47 :: b).head? = a.head? := by
    cases a with
    | nil => exact absurd rfl ha
    | cons c cs => rfl
  simp only [Clean, hhead, splitSlash_append, List.foldl_append]
  rw [foldl_cleanStep_plain _ _ _ hb]
  simp

theorem inside_append (root rest : Path) (h1 : dotdot ∉ rest) (h2 : [] ∉ rest) :
    inside root (root ++ rest) = true := by
  simp [inside, List.isPrefixOf_iff_prefix, h1, h2]

theorem Join_inside (root b : GoString) (hroot : root ≠ []) (hb : dotdot ∉ splitSlash b) :
    ∃ p, Join [root, b] = some p ∧ inside (Clean root) p = true := by
  refine ⟨Clean (root ++ 47 :: b), ?_, ?_⟩
  · cases root with
    | nil => exact absurd rfl hroot
    | cons c cs => simp [Join, List.dropWhile, joinSlash]
  · rw [Clean_join_plain root b hroot hb]
    apply inside_append
    · intro h
      exact hb (List.mem_of_mem_filter h)
    · intro h
      have := List.of_mem_filter h
      simp [keptElement] at this

theorem handleRoot_plain (urlPath : GoString) (h : dotdot ∉ splitSlash urlPath) :
    dotdot ∉ splitSlash (handleRoot urlPath) := by
  unfold handleRoot
  split
  · decide
  · exact h

theorem TrimPrefix_plain (s : GoString) (h : dotdot ∉ splitSlash s) :
    dotdot ∉ splitSlash (TrimPrefix s (ascii "/assets/")) := by
  unfold TrimPrefix
  split
  · rename_i hp
    simp only [HasPrefix, List.isPrefixOf_iff_prefix] at hp
    obtain ⟨t, rfl⟩ := hp
    rw [List.drop_left]
    have e : ascii "/assets/" ++ t = ascii "/assets" ++ 47 :: t := by
      simp [ascii]
    rw [e, splitSlash_append] at h
    exact fun hm => h (List.mem_append_right _ hm)
  · exact h

/-- C3, as stated, fails: the request `/../secret.html` is answered with the
content of `secret.html`, a file outside the source directory `src`. -/
theorem serve_escapes_source :
    serveDevelopmentFiles defaultConfig fsSecret (ascii "/../secret.html") =
      Response.write [(ascii "Content-Type", ascii "text/html"),
          (ascii "Cache-Control", ascii "no-cache")]
        (injectLiveReload defaultConfig.Port (ascii "<body>key</body>")) ∧
    Join [defaultConfig.Source, ascii "/../secret.html"] = some [ascii "secret.html"] ∧
    inside (Clean defaultConfig.Source) [ascii "secret.html"] = false :=
  ⟨by rfl, by decide, by decide⟩

/-- C3, amended. For a request path with no `..` element, and non-empty source
and assets directory names, the file that is read (when a body is written) or
handed to `http.ServeFile` lies inside the source directory or the assets
directory. -/
theorem serve_contained (config : Config) (fs : FS) (urlPath : GoString)
    (hs : config.Source ≠ []) (ha : config.Assets ≠ [])
    (hdd : dotdot ∉ splitSlash urlPath) :
    (∀ header body, serveDevelopmentFiles config fs urlPath = Response.write header body →
      ∃ p content, Join [config.Source, handleRoot urlPath] = some p ∧
        inside (Clean config.Source) p = true ∧ ReadFile fs (some p) = some content ∧
        body = injectLiveReload config.Port content) ∧
    (∀ header u name,
      serveDevelopmentFiles config fs urlPath = Response.serveFile header u name →
      ∃ p, name = some p ∧
        (inside (Clean config.Source) p = true ∨ inside (Clean config.Assets) p = true)) := by
  have h1 := handleRoot_plain urlPath hdd
  obtain ⟨ps, hps, hins⟩ := Join_inside config.Source (handleRoot urlPath) hs h1
  obtain ⟨pa, hpa, hina⟩ := Join_inside config.Assets
    (TrimPrefix (handleRoot urlPath) (ascii "/assets/")) ha (TrimPrefix_plain _ h1)
  constructor
  · intro header body h
    simp only [serveDevelopmentFiles, hps, hpa] at h
    split at h
    · split at h
      · split at h
        · exact absurd h (by simp)
        · rename_i content hread
          simp only [Response.write.injEq] at h
          exact ⟨ps, content, hps, hins, hread, h.2.symm⟩
      · exact absurd h (by simp)
    · split at h <;> exact absurd h (by simp)
  · intro header u name h
    simp only [serveDevelopmentFiles, hps, hpa] at h
    split at h
    · split at h
      · split at h <;> exact absurd h (by simp)
      · simp only [Response.serveFile.injEq] at h
        exact ⟨ps, h.2.2.symm, Or.inl hins⟩
    · split at h
      · simp only [Response.serveFile.injEq] at h
        exact ⟨pa, h.2.2.symm, Or.inr hina⟩
      · exact absurd h (by simp)

theorem serve_contained_witness :
    defaultConfig.Source ≠ [] ∧ defaultConfig.Assets ≠ [] ∧
    dotdot ∉ splitSlash (ascii "/index.html") ∧
    (∀ header body,
      serveDevelopmentFiles defaultConfig fsSecret (ascii "/index.html") =
        Response.write header body →
      ∃ p content, Join [defaultConfig.Source, handleRoot (ascii "/index.html")] = some p ∧
        inside (Clean defaultConfig.Source) p = true ∧ ReadFile fsSecret (some p) = some content ∧
        body = injectLiveReload defaultConfig.Port content) ∧
    (∀ header u name,
      serveDevelopmentFiles defaultConfig fsSecret (ascii "/index.html") =
        Response.serveFile header u name →
      ∃ p, name = some p ∧
        (inside (Clean defaultConfig.Source) p = true ∨
          inside (Clean defaultConfig.Assets) p = true)) :=
  ⟨by decide, by decide, by decide,
    serve_contained defaultConfig fsSecret (ascii "/index.html") (by decide) (by decide)
      (by decide)⟩

/-! ## Properties: debouncing -/

theorem maxDuration_val : maxDuration = 9223372036854775807 := by decide

theorem minDuration_val : minDuration = -9223372036854775808 := by decide

theorem saturate_gt (d : Int) (h : d > 100 * Millisecond) :
    saturate d > 100 * Millisecond := by
  unfold saturate
  rw [maxDuration_val, minDuration_val]
  simp only [Millisecond] at *
  split
  · omega
  · split <;> omega

theorem saturate_le (d : Int) (h : d ≤ 100 * Millisecond) :
    ¬ saturate d > 100 * Millisecond := by
  unfold saturate
  rw [maxDuration_val, minDuration_val]
  simp only [Millisecond] at *
  split
  · omega
  · split <;> omega

theorem sub_zeroTime (unixNano : Nat) (mono : Int) :
    (Now unixNano mono).Sub zeroTime = maxDuration := by
  simp only [Time.Sub, Now, zeroTime, saturate, maxDuration]
  have : (unixNano : Int) ≥ 0 := Int.ofNat_nonneg _
  split
  · rfl
  · omega

theorem watchEvent_first (e : Event) (he : e.Op &&& fsnotifyWrite = fsnotifyWrite)
    (unixNano : Nat) (mono : Int) :
    watchEvent zeroTime e (Now unixNano mono) = (true, Now unixNano mono) := by
  have h2 : maxDuration > 100 * Millisecond := by decide
  simp only [watchEvent, he, sub_zeroTime, h2, if_true]

theorem watchLoop_burst (w0 : Nat) (m0 : Int) (rest : List (Event × Nat × Int))
    (hw : ∀ x ∈ rest, x.1.Op &&& fsnotifyWrite = fsnotifyWrite)
    (h : ∀ x ∈ rest, x.2.2 ≤ m0 + 100 * Millisecond) :
    watchLoop (Now w0 m0) (eventMsgs rest) = List.replicate rest.length false := by
  induction rest with
  | nil => rfl
  | cons r rs ih =>
    have hr := h r (List.mem_cons_self _ _)
    have hwr := hw r (List.mem_cons_self _ _)
    have hsub : ¬ (Now r.2.1 r.2.2).Sub (Now w0 m0) > 100 * Millisecond := by
      simp only [Time.Sub, Now]
      exact saturate_le _ (by omega)
    have ih2 := ih (fun x hx => hw x (List.mem_cons_of_mem _ hx))
      (fun x hx => h x (List.mem_cons_of_mem _ hx))
    simp only [eventMsgs, List.map_cons, watchLoop, watchEvent, hwr, hsub, if_true, if_false,
      List.length_cons, List.replicate_succ] at *
    rw [ih2]

/-- C4. From the initial debounce state, a non-empty run of write events all
handled at most 100ms (monotonic clock) after the first one calls
`notifyClients` exactly once, on the first event. -/
theorem debounce_burst (first : Event × Nat × Int) (rest : List (Event × Nat × Int))
    (hw : ∀ x ∈ first :: rest, x.1.Op &&& fsnotifyWrite = fsnotifyWrite)
    (h : ∀ x ∈ rest, x.2.2 ≤ first.2.2 + 100 * Millisecond) :
    startFileWatcher (eventMsgs (first :: rest)) =
        true :: List.replicate rest.length false ∧
      (startFileWatcher (eventMsgs (first :: rest))).count true = 1 := by
  have e : startFileWatcher (eventMsgs (first :: rest)) =
      true :: List.replicate rest.length false := by
    unfold startFileWatcher
    have h1 := watchLoop_burst first.2.1 first.2.2 rest
      (fun x hx => hw x (List.mem_cons_of_mem _ hx)) h
    have h0 := watchEvent_first first.1 (hw first (List.mem_cons_self _ _)) first.2.1 first.2.2
    simp only [eventMsgs, List.map_cons, watchLoop, h0] at *
    rw [h1]
  rw [e]
  refine ⟨rfl, ?_⟩
  simp [List.count_cons, List.count_replicate]

theorem debounce_burst_witness :
    (∀ x ∈ burstEvents, x.1.Op &&& fsnotifyWrite = fsnotifyWrite) ∧
    (∀ x ∈ burstEvents.tail, x.2.2 ≤ (5 : Int) + 100 * Millisecond) ∧
    (startFileWatcher (eventMsgs burstEvents) = [true, false, false] ∧
      (startFileWatcher (eventMsgs burstEvents)).count true = 1) :=
  ⟨by decide, by decide,
    debounce_burst (⟨ascii "src/index.html", 2⟩, 1700000000000000000, 5)
      [(⟨ascii "src/index.html", 2⟩, 1700000000020000000, 20000005),
        (⟨ascii "src/app.js", 18⟩, 1700000000100000000, 100000005)]
      (by decide) (by decide)⟩

theorem watchLoop_gap (last : Time) (events : List (Event × Nat × Int))
    (hw : ∀ x ∈ events, x.1.Op &&& fsnotifyWrite = fsnotifyWrite)
    (hlast : last = zeroTime ∨ ∃ w m, last = Now w m ∧
      ∀ x, events.head? = some x → m + 100 * Millisecond < x.2.2)
    (h : List.Chain' (fun a b : Event × Nat × Int => a.2.2 + 100 * Millisecond < b.2.2) events) :
    watchLoop last (eventMsgs events) = List.replicate events.length true := by
  induction events generalizing last with
  | nil => rfl
  | cons r rs ih =>
    have hwr := hw r (List.mem_cons_self _ _)
    have hsub : (Now r.2.1 r.2.2).Sub last > 100 * Millisecond := by
      rcases hlast with rfl | ⟨w, m, rfl, hm⟩
      · rw [sub_zeroTime]; decide
      · have := hm r rfl
        simp only [Time.Sub, Now]
        exact saturate_gt _ (by omega)
    have hnext : ∀ x, rs.head? = some x → r.2.2 + 100 * Millisecond < x.2.2 := by
      intro x hx
      cases rs with
      | nil => simp at hx
      | cons y ys =>
        simp only [List.head?_cons, Option.some.injEq] at hx
        subst hx
        exact (List.chain'_cons.mp h).1
    have ih2 := ih (Now r.2.1 r.2.2) (fun x hx => hw x (List.mem_cons_of_mem _ hx))
      (Or.inr ⟨r.2.1, r.2.2, rfl, hnext⟩) h.tail
    simp only [eventMsgs, List.map_cons, watchLoop, watchEvent, hwr, hsub, if_true,
      List.length_cons, List.replicate_succ] at *
    rw [ih2]

/-- C5. From the initial debounce state, in a run of write events each handled
more than 100ms (monotonic clock) after the one before, every event calls
`notifyClients`: `n` events give `n` notifications. -/
theorem debounce_gap (events : List (Event × Nat × Int))
    (hw : ∀ x ∈ events, x.1.Op &&& fsnotifyWrite = fsnotifyWrite)
    (h : List.Chain' (fun a b : Event × Nat × Int => a.2.2 + 100 * Millisecond < b.2.2) events) :
    startFileWatcher (eventMsgs events) = List.replicate events.length true ∧
      (startFileWatcher (eventMsgs events)).count true = events.length := by
  have e := watchLoop_gap zeroTime events hw (Or.inl rfl) h
  unfold startFileWatcher
  rw [e]
  exact ⟨rfl, by simp [List.count_replicate]⟩

theorem debounce_gap_witness :
    (∀ x ∈ gapEvents, x.1.Op &&& fsnotifyWrite = fsnotifyWrite) ∧
    List.Chain' (fun a b : Event × Nat × Int => a.2.2 + 100 * Millisecond < b.2.2) gapEvents ∧
    (startFileWatcher (eventMsgs gapEvents) = [true, true, true] ∧
      (startFileWatcher (eventMsgs gapEvents)).count true = 3) :=
  ⟨by decide, by simp [gapEvents, Millisecond],
    debounce_gap
      [(⟨ascii "src/index.html", 2⟩, 1700000000000000000, 5),
        (⟨ascii "src/index.html", 2⟩, 1700000000100000001, 100000006),
        (⟨ascii "src/app.js", 18⟩, 1700000000300000000, 300000000)]
      (by decide) (by simp [Millisecond])⟩

/-! ## Properties: the reload hub -/

theorem foldl_notifyOne (writeFails : Conn → Bool) (l : List Conn) (st : Hub)
    (hnd : st.clients.Nodup) :
    (l.foldl (notifyOne writeFails) st).written =
        st.written ++ l.map (fun c => (c, TextMessage, ascii "reload")) ∧
      (l.foldl (notifyOne writeFails) st).closed = st.closed ++ l.filter writeFails ∧
      (l.foldl (notifyOne writeFails) st).clients =
        st.clients.filter (fun c => !(decide (c ∈ l) && writeFails c)) := by
  induction l generalizing st with
  | nil => simp
  | cons a l ih =>
    rw [List.foldl_cons]
    by_cases hf : writeFails a = true
    · have hst : notifyOne writeFails st a =
          { clients := st.clients.erase a,
            written := st.written ++ [(a, TextMessage, ascii "reload")],
            closed := st.closed ++ [a] } := by
        simp [notifyOne, hf]
      obtain ⟨h1, h2, h3⟩ := ih (notifyOne writeFails st a) (by rw [hst]; exact hnd.erase a)
      rw [h1, h2, h3, hst]
      refine ⟨by simp, by simp [List.filter_cons, hf], ?_⟩
      simp only [hnd.erase_eq_filter, List.filter_filter]
      apply List.filter_congr
      intro c _
      by_cases hca : c = a
      · subst hca; simp [hf]
      · simp [hca]
    · have hf2 : writeFails a = false := by simpa using hf
      have hst : notifyOne writeFails st a =
          { st with written := st.written ++ [(a, TextMessage, ascii "reload")] } := by
        simp [notifyOne, hf2]
      obtain ⟨h1, h2, h3⟩ := ih (notifyOne writeFails st a) (by rw [hst]; exact hnd)
      rw [h1, h2, h3, hst]
      refine ⟨by simp, by simp [List.filter_cons, hf2], ?_⟩
      apply List.filter_congr
      intro c _
      by_cases hca : c = a
      · subst hca; simp [hf2]
      · simp [hca]

theorem count_map_reload (l : List Conn) (c : Conn) :
    (l.map (fun c => (c, TextMessage, ascii "reload"))).count (c, TextMessage, ascii "reload") =
      l.count c := by
  induction l with
  | nil => rfl
  | cons a l ih =>
    by_cases h : a = c
    · subst h; simp [ih]
    · have h2 : ¬ (a, TextMessage, ascii "reload") = (c, TextMessage, ascii "reload") := by
        intro e; exact h (Prod.mk.inj e).1
      simp only [List.map_cons, List.count_cons, ih]
      simp [h, h2]

/-- C6. One call of `notifyClients` on a registry writes the text message
`reload` once to each registered session; afterwards the registry holds exactly
the sessions whose write succeeded and the others have been closed; a following
call writes nothing more to a session whose write failed. -/
theorem notifyClients_prunes (writeFails : Conn → Bool) (clients : List Conn)
    (hnd : clients.Nodup) :
    (notifyClients writeFails ⟨clients, [], []⟩).written =
        clients.map (fun c => (c, TextMessage, ascii "reload")) ∧
      (∀ c ∈ clients,
        (notifyClients writeFails ⟨clients, [], []⟩).written.count
          (c, TextMessage, ascii "reload") = 1) ∧
      (notifyClients writeFails ⟨clients, [], []⟩).clients =
        clients.filter (fun c => !writeFails c) ∧
      (notifyClients writeFails ⟨clients, [], []⟩).closed = clients.filter writeFails ∧
      (∀ (writeFails2 : Conn → Bool) (c : Conn), c ∈ clients → writeFails c = true →
        (notifyClients writeFails2 (notifyClients writeFails ⟨clients, [], []⟩)).written.count
          (c, TextMessage, ascii "reload") = 1) := by
  obtain ⟨h1, h2, h3⟩ := foldl_notifyOne writeFails clients ⟨clients, [], []⟩ hnd
  have h1' : (notifyClients writeFails ⟨clients, [], []⟩).written =
      clients.map (fun c => (c, TextMessage, ascii "reload")) := by
    simpa [notifyClients] using h1
  have h2' : (notifyClients writeFails ⟨clients, [], []⟩).closed = clients.filter writeFails := by
    simpa [notifyClients] using h2
  have h3' : (notifyClients writeFails ⟨clients, [], []⟩).clients =
      clients.filter (fun c => !writeFails c) := by
    have : (notifyClients writeFails ⟨clients, [], []⟩).clients =
        clients.filter (fun c => !(decide (c ∈ clients) && writeFails c)) := by
      simpa [notifyClients] using h3
    rw [this]
    apply List.filter_congr
    intro c hc
    simp [hc]
  have hcount : ∀ c ∈ clients,
      (clients.map (fun c => (c, TextMessage, ascii "reload"))).count
        (c, TextMessage, ascii "reload") = 1 := by
    intro c hc
    rw [count_map_reload]
    exact List.count_eq_one_of_mem hnd hc
  refine ⟨h1', ?_, h3', h2', ?_⟩
  · intro c hc
    rw [h1']
    exact hcount c hc
  · intro writeFails2 c hc hfail
    have hnd2 : (notifyClients writeFails ⟨clients, [], []⟩).clients.Nodup := by
      rw [h3']; exact hnd.filter _
    obtain ⟨g1, _, _⟩ := foldl_notifyOne writeFails2
      (notifyClients writeFails ⟨clients, [], []⟩).clients
      (notifyClients writeFails ⟨clients, [], []⟩) hnd2
    have g1' : (notifyClients writeFails2 (notifyClients writeFails ⟨clients, [], []⟩)).written =
        (notifyClients writeFails ⟨clients, [], []⟩).written ++
          (notifyClients writeFails ⟨clients, [], []⟩).clients.map
            (fun c => (c, TextMessage, ascii "reload")) := g1
    rw [g1', h1', h3', List.count_append, hcount c hc, count_map_reload]
    have : c ∉ clients.filter (fun c => !writeFails c) := by
      simp [hfail]
    rw [List.count_eq_zero_of_not_mem this]

theorem notifyClients_prunes_witness :
    [(7 : Conn), 3, 9].Nodup ∧
    ((notifyClients (fun c => decide (c = 3)) ⟨[7, 3, 9], [], []⟩).written =
        [(7 : Conn), 3, 9].map (fun c => (c, TextMessage, ascii "reload")) ∧
      (∀ c ∈ [(7 : Conn), 3, 9],
        (notifyClients (fun c => decide (c = 3)) ⟨[7, 3, 9], [], []⟩).written.count
          (c, TextMessage, ascii "reload") = 1) ∧
      (notifyClients (fun c => decide (c = 3)) ⟨[7, 3, 9], [], []⟩).clients =
        [(7 : Conn), 3, 9].filter (fun c => !(fun c => decide (c = 3)) c) ∧
      (notifyClients (fun c => decide (c = 3)) ⟨[7, 3, 9], [], []⟩).closed =
        [(7 : Conn), 3, 9].filter (fun c => decide (c = 3)) ∧
      (∀ (writeFails2 : Conn → Bool) (c : Conn), c ∈ [(7 : Conn), 3, 9] →
        (fun c => decide (c = 3)) c = true →
        (notifyClients writeFails2
          (notifyClients (fun c => decide (c = 3)) ⟨[7, 3, 9], [], []⟩)).written.count
          (c, TextMessage, ascii "reload") = 1)) :=
  ⟨by decide, notifyClients_prunes (fun c => decide (c = 3)) [7, 3, 9] (by decide)⟩

/-! ## Properties: file system calls -/

theorem lookup_cons_path (fs : FS) (p q : Path) (e : Entry) :
    List.lookup q ((p, e) :: fs) = if q = p then some e else List.lookup q fs := by
  by_cases h : q = p
  · subst h; simp [List.lookup]
  · have : (q == p) = false := by simpa using h
    simp [List.lookup, this, h]

theorem lookup_filter_path (fs : FS) (f : Path → Bool) (q : Path) :
    List.lookup q (fs.filter (fun kv => f kv.1)) = if f q then List.lookup q fs else none := by
  induction fs with
  | nil => simp
  | cons kv fs ih =>
    obtain ⟨k, e⟩ := kv
    by_cases hk : f k = true
    · rw [List.filter_cons_of_pos (by simpa using hk), lookup_cons_path, lookup_cons_path, ih]
      by_cases hq : q = k
      · subst hq; simp [hk]
      · simp [hq]
    · have hk2 : f k = false := by simpa using hk
      rw [List.filter_cons_of_neg (by simpa using hk), lookup_cons_path, ih]
      by_cases hq : q = k
      · subst hq; simp [hk2]
      · simp [hq]

theorem lookup_mem (fs : FS) (q : Path) (e : Entry) (h : List.lookup q fs = some e) :
    (q, e) ∈ fs := by
  induction fs with
  | nil => simp at h
  | cons kv fs ih =>
    obtain ⟨k, e'⟩ := kv
    rw [lookup_cons_path] at h
    by_cases hq : q = k
    · subst hq
      simp only [if_true, Option.some.injEq] at h
      subst h
      exact List.mem_cons_self _ _
    · simp only [hq, if_false] at h
      exact List.mem_cons_of_mem _ (ih h)

theorem lookup_isSome_of_mem (fs : FS) (q : Path) (e : Entry) (h : (q, e) ∈ fs) :
    List.lookup q fs ≠ none := by
  induction fs with
  | nil => simp at h
  | cons kv fs ih =>
    obtain ⟨k, e'⟩ := kv
    rw [lookup_cons_path]
    by_cases hq : q = k
    · simp [hq]
    · simp only [hq, if_false]
      rcases List.mem_cons.mp h with h1 | h1
      · exact absurd (Prod.mk.inj h1).1 hq
      · exact ih h1

theorem statPath_implicit (fs : FS) (p : Path) (h : implicitDir p) :
    statPath fs p = some Entry.dir := by
  unfold implicitDir at h
  simp [statPath, h]

theorem statPath_eq_lookup (fs : FS) (p : Path) (h : ¬ implicitDir p) :
    statPath fs p = List.lookup p fs := by
  unfold implicitDir at h
  simp [statPath, h]

theorem not_implicit_of_ne_dir (fs : FS) (p : Path) (h : statPath fs p ≠ some Entry.dir) :
    ¬ implicitDir p := fun hi => h (statPath_implicit fs p hi)

theorem statPath_cons (fs : FS) (p q : Path) (e : Entry) (hp : ¬ implicitDir p) :
    statPath ((p, e) :: fs) q = if q = p then some e else statPath fs q := by
  by_cases hq : implicitDir q
  · have : q ≠ p := fun h => hp (h ▸ hq)
    simp [statPath_implicit _ _ hq, this]
  · rw [statPath_eq_lookup _ _ hq, statPath_eq_lookup _ _ hq, lookup_cons_path]

theorem statPath_filter (fs : FS) (f : Path → Bool) (q : Path) (hq : ¬ implicitDir q) :
    statPath (fs.filter (fun kv => f kv.1)) q = if f q then statPath fs q else none := by
  rw [statPath_eq_lookup _ _ hq, statPath_eq_lookup _ _ hq, lookup_filter_path]

theorem statPath_setEntry (fs : FS) (p q : Path) (e : Entry) (hp : ¬ implicitDir p) :
    statPath (setEntry fs p e) q = if q = p then some e else statPath fs q := by
  unfold setEntry
  rw [statPath_cons _ _ _ _ hp]
  by_cases h : q = p
  · simp [h]
  · simp only [h, if_false]
    by_cases hq : implicitDir q
    · rw [statPath_implicit _ _ hq, statPath_implicit _ _ hq]
    · rw [statPath_filter fs (fun k => !(k == p)) q hq]
      simp [h]

theorem statPath_append_new (N fs : FS) (q : Path) (hN : ∀ kv ∈ N, kv.1 ≠ q) :
    statPath (N ++ fs) q = statPath fs q := by
  induction N with
  | nil => simp
  | cons kv N ih =>
    obtain ⟨k, e⟩ := kv
    have hk : q ≠ k := fun h => hN (k, e) (List.mem_cons_self _ _) h.symm
    have ih2 := ih (fun kv h => hN kv (List.mem_cons_of_mem _ h))
    by_cases hq : implicitDir q
    · rw [statPath_implicit _ _ hq, statPath_implicit _ _ hq]
    · rw [statPath_eq_lookup _ _ hq, List.cons_append, lookup_cons_path,
        ← statPath_eq_lookup _ _ hq, ih2]
      simp [hk]

theorem statPath_append_dir (N fs : FS) (q : Path) (hN : ∀ kv ∈ N, kv.2 = Entry.dir)
    (hq : ∃ kv ∈ N, kv.1 = q) : statPath (N ++ fs) q = some Entry.dir := by
  induction N with
  | nil => obtain ⟨kv, h, _⟩ := hq; simp at h
  | cons kv N ih =>
    obtain ⟨k, e⟩ := kv
    have he : e = Entry.dir := hN (k, e) (List.mem_cons_self _ _)
    subst he
    by_cases hi : implicitDir q
    · exact statPath_implicit _ _ hi
    · rw [statPath_eq_lookup _ _ hi, List.cons_append, lookup_cons_path]
      by_cases hqk : q = k
      · simp [hqk]
      · simp only [hqk, if_false]
        rw [← statPath_eq_lookup _ _ hi]
        apply ih (fun kv h => hN kv (List.mem_cons_of_mem _ h))
        obtain ⟨kv, hkv, hk⟩ := hq
        rcases List.mem_cons.mp hkv with h | h
        · subst h; exact absurd hk.symm hqk
        · exact ⟨kv, h, hk⟩

theorem allowAll_apply (c : Call) (p : Path) : allowAll c p = false := rfl

theorem lstatPath_allowAll (fs : FS) (p : Path) : lstatPath allowAll fs p = statPath fs p := by
  simp [lstatPath, allowAll]

theorem Mkdir_allowAll (p : Path) (fs : FS) :
    Mkdir allowAll p fs =
      match statPath fs p with
      | some _ => (fs, some Errno.EEXIST)
      | none =>
        match statPath fs p.dropLast with
        | some Entry.dir => ((p, Entry.dir) :: fs, none)
        | some (Entry.file _ _) => (fs, some Errno.ENOTDIR)
        | none => (fs, some Errno.ENOENT) := by
  simp [Mkdir, allowAll]

/-- What `MkdirAll` does: it adds directories at prefixes of the path that
did not exist; on an error nothing is added; on success the path is a
directory. -/
theorem mkdirAllRev_spec (fs : FS) (rp : List GoString) :
    ∃ N, (mkdirAllRev allowAll fs rp).1 = N ++ fs ∧
      (∀ kv ∈ N, kv.1 <+: rp.reverse ∧ statPath fs kv.1 = none ∧ kv.2 = Entry.dir) ∧
      ((mkdirAllRev allowAll fs rp).2 ≠ none → N = []) ∧
      ((mkdirAllRev allowAll fs rp).2 = none → statPath (N ++ fs) rp.reverse = some Entry.dir) := by
  induction rp with
  | nil =>
    refine ⟨[], by simp [mkdirAllRev], by simp, by simp, ?_⟩
    intro _
    exact statPath_implicit _ _ (Or.inl rfl)
  | cons last parentRev ih =>
    obtain ⟨N, hN1, hN2, hN3, hN4⟩ := ih
    cases hs : statPath fs (last :: parentRev).reverse with
    | some e =>
      cases e with
      | dir =>
        have hm : mkdirAllRev allowAll fs (last :: parentRev) = (fs, none) := by
          simp only [mkdirAllRev, lstatPath_allowAll, hs]
        refine ⟨[], by rw [hm]; rfl, by simp, by simp, ?_⟩
        intro _
        simpa using hs
      | file c b =>
        have hm : mkdirAllRev allowAll fs (last :: parentRev) = (fs, some Errno.ENOTDIR) := by
          simp only [mkdirAllRev, lstatPath_allowAll, hs]
        exact ⟨[], by rw [hm]; rfl, by simp, by simp, by rw [hm]; simp⟩
    | none =>
      have hni : ¬ implicitDir (last :: parentRev).reverse := by
        apply not_implicit_of_ne_dir fs
        rw [hs]; simp
      cases hr : (mkdirAllRev allowAll fs parentRev).2 with
      | some e =>
        have hNnil := hN3 (by rw [hr]; simp)
        subst hNnil
        have h1 : mkdirAllRev allowAll fs parentRev = ((mkdirAllRev allowAll fs parentRev).1, some e) := by
          rw [← hr]
        have hm : mkdirAllRev allowAll fs (last :: parentRev) = ((mkdirAllRev allowAll fs parentRev).1, some e) := by
          simp only [mkdirAllRev, lstatPath_allowAll, hs]
          rw [h1]
        refine ⟨[], by rw [hm]; simpa using hN1, by simp, by simp, ?_⟩
        intro h; rw [hm] at h; simp at h
      | none =>
        have h1 : mkdirAllRev allowAll fs parentRev = (N ++ fs, none) := by
          rw [← hN1, ← hr]
        have hpar := hN4 hr
        have hNd : ∀ kv ∈ N, kv.2 = Entry.dir := fun kv h => (hN2 kv h).2.2
        have hnew : statPath (N ++ fs) (last :: parentRev).reverse = none := by
          rw [statPath_append_new N fs _ ?_, hs]
          intro kv hkv hk
          have hpre := (hN2 kv hkv).1
          rw [hk] at hpre
          have := hpre.length_le
          simp at this
        have hdl : ((last :: parentRev).reverse).dropLast = parentRev.reverse := by
          simp [List.dropLast_concat]
        have hm : mkdirAllRev allowAll fs (last :: parentRev) =
            (((last :: parentRev).reverse, Entry.dir) :: (N ++ fs), none) := by
          simp only [mkdirAllRev, lstatPath_allowAll, hs]
          rw [h1]
          simp only [Mkdir_allowAll, hnew, hdl, hpar]
        refine ⟨((last :: parentRev).reverse, Entry.dir) :: N, by rw [hm]; simp, ?_, ?_, ?_⟩
        · intro kv hkv
          rcases List.mem_cons.mp hkv with h | h
          · subst h
            exact ⟨List.prefix_refl _, hs, rfl⟩
          · obtain ⟨a, b, c⟩ := hN2 kv h
            refine ⟨?_, b, c⟩
            rw [List.reverse_cons]
            exact a.trans (List.prefix_append _ _)
        · intro h; rw [hm] at h; simp at h
        · intro _
          rw [List.cons_append, statPath_cons _ _ _ _ hni]
          simp

theorem MkdirAll_spec (p : Path) (fs : FS) :
    ∃ N, (MkdirAll allowAll p fs).1 = N ++ fs ∧
      (∀ kv ∈ N, kv.1 <+: p ∧ statPath fs kv.1 = none ∧ kv.2 = Entry.dir) ∧
      ((MkdirAll allowAll p fs).2 ≠ none → N = []) ∧
      ((MkdirAll allowAll p fs).2 = none → statPath (N ++ fs) p = some Entry.dir) := by
  obtain ⟨N, h1, h2, h3, h4⟩ := mkdirAllRev_spec fs p.reverse
  rw [List.reverse_reverse] at h2 h4
  exact ⟨N, h1, h2, h3, h4⟩

theorem MkdirAll_preserves (p q : Path) (fs : FS) (e : Entry) (h : statPath fs q = some e) :
    statPath (MkdirAll allowAll p fs).1 q = some e := by
  obtain ⟨N, h1, h2, _, _⟩ := MkdirAll_spec p fs
  rw [h1, statPath_append_new N fs q ?_, h]
  intro kv hkv hk
  have := (h2 kv hkv).2.1
  rw [hk, h] at this
  exact absurd this (by simp)

theorem MkdirAll_only (p q : Path) (fs : FS) (e : Entry)
    (h : statPath (MkdirAll allowAll p fs).1 q = some e) :
    statPath fs q = some e ∨ (statPath fs q = none ∧ e = Entry.dir ∧ q <+: p) := by
  obtain ⟨N, h1, h2, _, _⟩ := MkdirAll_spec p fs
  rw [h1] at h
  rcases Classical.em (∃ kv ∈ N, kv.1 = q) with hq | hq
  · rw [statPath_append_dir N fs q (fun kv hkv => (h2 kv hkv).2.2) hq] at h
    obtain ⟨kv, hkv, hk⟩ := hq
    obtain ⟨a, b, _⟩ := h2 kv hkv
    rw [hk] at a b
    exact Or.inr ⟨b, by simpa using h.symm, a⟩
  · rw [statPath_append_new N fs q (fun kv hkv hk => hq ⟨kv, hkv, hk⟩)] at h
    exact Or.inl h

theorem MkdirAll_success (p : Path) (fs : FS) (h : (MkdirAll allowAll p fs).2 = none) :
    statPath (MkdirAll allowAll p fs).1 p = some Entry.dir := by
  obtain ⟨N, h1, _, _, h4⟩ := MkdirAll_spec p fs
  rw [h1]; exact h4 h

/-- `MkdirAll` succeeds when no prefix of the path is a regular file. -/
theorem mkdirAllRev_ok (fs : FS) (rp : List GoString)
    (h : ∀ q, q <+: rp.reverse → ∀ c b, statPath fs q ≠ some (Entry.file c b)) :
    (mkdirAllRev allowAll fs rp).2 = none := by
  induction rp with
  | nil => rfl
  | cons last parentRev ih =>
    have ih2 := ih (fun q hq => h q (by
      rw [List.reverse_cons]; exact hq.trans (List.prefix_append _ _)))
    cases hs : statPath fs (last :: parentRev).reverse with
    | some e =>
      cases e with
      | dir => simp only [mkdirAllRev, lstatPath_allowAll, hs]
      | file c b => exact absurd hs (h _ (List.prefix_refl _) c b)
    | none =>
      obtain ⟨N, hN1, hN2, _, hN4⟩ := mkdirAllRev_spec fs parentRev
      have h1 : mkdirAllRev allowAll fs parentRev = (N ++ fs, none) := by
        rw [← hN1, ← ih2]
      have hnew : statPath (N ++ fs) (last :: parentRev).reverse = none := by
        rw [statPath_append_new N fs _ ?_, hs]
        intro kv hkv hk
        have hpre := (hN2 kv hkv).1
        rw [hk] at hpre
        have := hpre.length_le
        simp at this
      have hdl : ((last :: parentRev).reverse).dropLast = parentRev.reverse := by
        simp [List.dropLast_concat]
      simp only [mkdirAllRev, lstatPath_allowAll, hs]
      rw [h1]
      simp only [Mkdir_allowAll, hnew, hdl, hN4 ih2]

theorem MkdirAll_ok (p : Path) (fs : FS)
    (h : ∀ q, q <+: p → ∀ c b, statPath fs q ≠ some (Entry.file c b)) :
    (MkdirAll allowAll p fs).2 = none := by
  unfold MkdirAll
  apply mkdirAllRev_ok
  simpa using h

theorem Rel_append (S rel : Path) : Rel S (S ++ rel) = some rel := by
  simp [Rel, List.isPrefixOf_iff_prefix]

theorem not_prefix_of_disjoint (S D : Path) (h1 : ¬ S <+: D) (h2 : ¬ D <+: S) (x y : Path) :
    ¬ (D ++ x) <+: (S ++ y) := by
  intro h
  have hD : D <+: S ++ y := (List.prefix_append D x).trans h
  have hS : S <+: S ++ y := List.prefix_append S y
  rcases List.prefix_or_prefix_of_prefix hD hS with h | h
  · exact h2 h
  · exact h1 h

theorem ne_of_disjoint (S D : Path) (h1 : ¬ S <+: D) (h2 : ¬ D <+: S) (x y : Path) :
    S ++ y ≠ D ++ x := by
  intro h
  apply not_prefix_of_disjoint S D h1 h2 x y
  rw [h]

/-- A successful call of the callback of `copyDir` on an entry of the source:
other entries stay, the destination holds the copy, and what is new is the
copy or a directory above it. -/
theorem copyEntry_step (S D rel : Path) (info : Entry) (fs fs' : FS)
    (hd1 : ¬ S <+: D) (hd2 : ¬ D <+: S)
    (hinfo : statPath fs (S ++ rel) = some info)
    (h : copyEntry allowAll S D (S ++ rel) info fs = (fs', none)) :
    (∀ q e, statPath fs q = some e → q ≠ D ++ rel → statPath fs' q = some e) ∧
      statPath fs' (D ++ rel) = some (copyOf info) ∧
      (∀ q e, statPath fs' q = some e →
        statPath fs q = some e ∨ (q = D ++ rel ∧ e = copyOf info) ∨
          (q <+: D ++ rel ∧ q ≠ D ++ rel ∧ e = Entry.dir)) := by
  simp only [copyEntry, Rel_append] at h
  cases info with
  | dir =>
    simp only at h
    have h1 : (MkdirAll allowAll (D ++ rel) fs).1 = fs' := by rw [h]
    have h2 : (MkdirAll allowAll (D ++ rel) fs).2 = none := by rw [h]
    refine ⟨?_, ?_, ?_⟩
    · intro q e hq _
      rw [← h1]; exact MkdirAll_preserves _ _ _ _ hq
    · rw [← h1]; exact MkdirAll_success _ _ h2
    · intro q e hq
      rw [← h1] at hq
      rcases MkdirAll_only _ _ _ _ hq with h | ⟨_, b, c⟩
      · exact Or.inl h
      · by_cases hqd : q = D ++ rel
        · exact Or.inr (Or.inl ⟨hqd, by rw [b]; rfl⟩)
        · exact Or.inr (Or.inr ⟨c, hqd, b⟩)
  | file c b =>
    simp only at h
    have hne : S ++ rel ≠ D ++ rel := ne_of_disjoint S D hd1 hd2 rel rel
    cases b with
    | false => simp [copyFile, allowAll_apply, hinfo] at h
    | true =>
      simp only [copyFile, allowAll_apply, Bool.false_eq_true, if_false, hinfo] at h
      split at h
      · simp at h
      · simp at h
      · rename_i hnd hnf
        split at h
        · simp at h
        · simp at h
        · rename_i hpar
          have hni : ¬ implicitDir (D ++ rel) := not_implicit_of_ne_dir _ _ (fun hh => hnd hh)
          have hsrc : statPath (MkdirAll allowAll (D ++ rel).dropLast fs).1 (S ++ rel) =
              some (Entry.file c true) := MkdirAll_preserves _ _ _ _ hinfo
          have hsrc2 : statPath (setEntry (MkdirAll allowAll (D ++ rel).dropLast fs).1 (D ++ rel)
              (Entry.file [] true)) (S ++ rel) = some (Entry.file c true) := by
            rw [statPath_setEntry _ _ _ _ hni]
            simp [hne, hsrc]
          rw [hsrc2] at h
          simp only at h
          have hfs : fs' = setEntry (setEntry (MkdirAll allowAll (D ++ rel).dropLast fs).1 (D ++ rel)
              (Entry.file [] true)) (D ++ rel) (Entry.file c true) := by
            have := (Prod.mk.inj h).1
            exact this.symm
          have hlook : ∀ q, statPath fs' q =
              if q = D ++ rel then some (Entry.file c true)
              else statPath (MkdirAll allowAll (D ++ rel).dropLast fs).1 q := by
            intro q
            rw [hfs, statPath_setEntry _ _ _ _ hni, statPath_setEntry _ _ _ _ hni]
            by_cases hq : q = D ++ rel <;> simp [hq]
          refine ⟨?_, ?_, ?_⟩
          · intro q e hq hqne
            rw [hlook]
            simp only [hqne, if_false]
            exact MkdirAll_preserves _ _ _ _ hq
          · rw [hlook]; simp [copyOf]
          · intro q e hq
            rw [hlook] at hq
            by_cases hqd : q = D ++ rel
            · simp only [hqd, if_true, Option.some.injEq] at hq
              exact Or.inr (Or.inl ⟨hqd, by rw [← hq]; rfl⟩)
            · simp only [hqd, if_false] at hq
              rcases MkdirAll_only _ _ _ _ hq with h | ⟨_, b, c⟩
              · exact Or.inl h
              · exact Or.inr (Or.inr ⟨c.trans (List.dropLast_prefix _), hqd, b⟩)

/-! ## Properties: walking a tree -/

theorem childName_eq_some (p k : Path) (n : GoString) :
    childName p k = some n ↔ k = p ++ [n] := by
  unfold childName
  constructor
  · intro h
    split at h
    · rename_i m hm
      split at h
      · rename_i hp
        simp only [Option.some.injEq] at h
        subst h
        have hp2 : p <+: k := List.isPrefixOf_iff_prefix.mp hp
        have := List.prefix_iff_eq_append.mp hp2
        rw [hm] at this
        exact this.symm
      · simp at h
    · simp at h
  · intro h
    subst h
    simp [List.isPrefixOf_iff_prefix]

theorem mem_readDirNames (fs : FS) (p : Path) (n : GoString) :
    n ∈ readDirNames fs p ↔ ∃ e, (p ++ [n], e) ∈ fs := by
  unfold readDirNames
  rw [List.mem_insertionSort, List.mem_dedup, List.mem_filterMap]
  constructor
  · rintro ⟨⟨k, e⟩, hmem, hk⟩
    have := (childName_eq_some p k n).mp hk
    subst this
    exact ⟨e, hmem⟩
  · rintro ⟨e, hmem⟩
    exact ⟨(p ++ [n], e), hmem, (childName_eq_some p _ n).mpr rfl⟩

theorem not_implicit_child (S x : Path) (n : GoString) (hS : S ≠ []) :
    ¬ implicitDir (S ++ x ++ [n]) := by
  intro h
  rcases h with h | h
  · simp at h
  · have := congrArg List.length h
    cases S with
    | nil => exact hS rfl
    | cons a S => simp at this

theorem mem_readDirNames_of_stat (fs : FS) (S x : Path) (n : GoString) (hS : S ≠ [])
    (h : statPath fs (S ++ x ++ [n]) ≠ none) : n ∈ readDirNames fs (S ++ x) := by
  rw [mem_readDirNames]
  rw [statPath_eq_lookup _ _ (not_implicit_child S x n hS)] at h
  cases hl : List.lookup (S ++ x ++ [n]) fs with
  | none => exact absurd hl h
  | some e => exact ⟨e, lookup_mem _ _ _ hl⟩

theorem dir_of_below (S : Path) (fs : FS) (hc : DirClosed S fs) (x y : Path) (hy : y ≠ [])
    (h : statPath fs (S ++ x ++ y) ≠ none) : statPath fs (S ++ x) = some Entry.dir := by
  induction y using List.reverseRecOn generalizing x with
  | nil => exact absurd rfl hy
  | append_singleton y n ih =>
    have h2 : statPath fs (S ++ (x ++ y) ++ [n]) ≠ none := by
      simpa [List.append_assoc] using h
    have h3 := hc (x ++ y) n h2
    by_cases hy2 : y = []
    · subst hy2; simpa using h3
    · apply ih x hy2
      rw [← List.append_assoc] at h3
      rw [h3]; simp

theorem frozen_of_walkSpec (S D rel : Path) (fs fs' : FS) (hd1 : ¬ S <+: D) (hd2 : ¬ D <+: S)
    (h : WalkSpec S D rel fs fs') (x : Path) : statPath fs' (S ++ x) = statPath fs (S ++ x) := by
  obtain ⟨w1, _, w3⟩ := h
  cases hx : statPath fs (S ++ x) with
  | some e => exact w1 _ _ (not_prefix_of_disjoint S D hd1 hd2 rel x) hx
  | none =>
    cases hx' : statPath fs' (S ++ x) with
    | none => rfl
    | some e =>
      rcases w3 _ _ hx' with h | ⟨r, e0, hq, _, _⟩ | ⟨hq, _, _⟩
      · rw [hx] at h; exact absurd h (by simp)
      · rw [List.append_assoc] at hq
        exact absurd hq (ne_of_disjoint S D hd1 hd2 _ _)
      · exfalso
        have h1 : S <+: D ++ rel := (List.prefix_append S x).trans hq
        have h2 : D <+: D ++ rel := List.prefix_append D rel
        rcases List.prefix_or_prefix_of_prefix h1 h2 with h | h
        · exact hd1 h
        · exact hd2 h

theorem dirClosed_of_frozen (S : Path) (fs fs' : FS)
    (hf : ∀ x, statPath fs' (S ++ x) = statPath fs (S ++ x)) (hc : DirClosed S fs) :
    DirClosed S fs' := by
  intro x n h
  have h1 := hf (x ++ [n])
  have h2 := hf x
  rw [← List.append_assoc] at h1
  rw [h2]
  apply hc x n
  rw [← h1]; exact h

theorem not_prefix_sibling (X : Path) (m n : GoString) (r : Path) (h : m ≠ n) :
    ¬ (X ++ [m]) <+: (X ++ n :: r) := by
  intro hp
  rw [List.prefix_append_right_inj] at hp
  obtain ⟨t, ht⟩ := hp
  simp at ht
  exact h ht.1

theorem walkNames_char (S D : Path) (hd1 : ¬ S <+: D) (hd2 : ¬ D <+: S)
    (walkRec : Path → Entry → FS → Option (FS × Option Errno))
    (ih : ∀ rel info fs fs', statPath fs (S ++ rel) = some info → DirClosed S fs →
      walkRec (S ++ rel) info fs = some (fs', none) → WalkSpec S D rel fs fs')
    (rel : Path) (ns : List GoString) :
    ∀ fs fs', DirClosed S fs → walkNames allowAll walkRec (S ++ rel) ns fs = some (fs', none) →
      NamesSpec S D rel ns fs fs' := by
  induction ns with
  | nil =>
    intro fs fs' _ h
    simp only [walkNames, Option.some.injEq, Prod.mk.injEq, and_true] at h
    subst h
    exact ⟨fun q e _ h => h, fun m hm => absurd hm (by simp), fun q e h => Or.inl h⟩
  | cons n ns ihn =>
    intro fs fs' hc h
    simp only [walkNames, lstatPath_allowAll] at h
    split at h
    · simp at h
    · rename_i fileInfo hinfo
      split at h
      · simp at h
      · simp at h
      · rename_i fs2 hw
        have hinfo2 : statPath fs (S ++ (rel ++ [n])) = some fileInfo := by
          rw [← List.append_assoc]; exact hinfo
        have hw2 : walkRec (S ++ (rel ++ [n])) fileInfo fs = some (fs2, none) := by
          rw [← List.append_assoc]; exact hw
        have hW := ih (rel ++ [n]) fileInfo fs fs2 hinfo2 hc hw2
        have hfz := frozen_of_walkSpec S D (rel ++ [n]) fs fs2 hd1 hd2 hW
        have hc2 := dirClosed_of_frozen S fs fs2 hfz hc
        obtain ⟨n1, n2, n3⟩ := ihn fs2 fs' hc2 h
        obtain ⟨w1, w2, w3⟩ := hW
        refine ⟨?_, ?_, ?_⟩
        · intro q e hq hs
          apply n1 q e (fun m hm => hq m (List.mem_cons_of_mem _ hm))
          apply w1 q e _ hs
          have := hq n (List.mem_cons_self _ _)
          rwa [List.append_assoc] at this
        · intro m hm r e hs
          by_cases hmns : m ∈ ns
          · apply n2 m hmns r e
            have := hfz (rel ++ m :: r)
            rw [← List.append_assoc] at this
            rw [this]; exact hs
          · have hmn : m = n := by
              rcases List.mem_cons.mp hm with h | h
              · exact h
              · exact absurd h hmns
            subst hmn
            have hs2 : statPath fs (S ++ (rel ++ [m]) ++ r) = some e := by
              simpa [List.append_assoc] using hs
            have := w2 r e hs2
            have h3 : statPath fs2 (D ++ rel ++ m :: r) = some (copyOf e) := by
              simpa [List.append_assoc] using this
            apply n1 _ _ _ h3
            intro m' hm'
            apply not_prefix_sibling
            intro heq; subst heq; exact hmns hm'
        · intro q e hs
          rcases n3 q e hs with h | ⟨m, hm, r, e0, hq, hs0, he⟩ | ⟨hq, he⟩
          · rcases w3 q e h with h | ⟨r, e0, hq, hs0, he⟩ | ⟨hq, hne, he⟩
            · exact Or.inl h
            · refine Or.inr (Or.inl ⟨n, List.mem_cons_self _ _, r, e0, ?_, ?_, he⟩)
              · simpa [List.append_assoc] using hq
              · simpa [List.append_assoc] using hs0
            · right; right
              refine ⟨?_, he⟩
              rw [← List.append_assoc] at hq hne
              rcases List.prefix_concat_iff.mp hq with h1 | h1
              · exact absurd h1 hne
              · exact h1
          · refine Or.inr (Or.inl ⟨m, List.mem_cons_of_mem _ hm, r, e0, hq, ?_, he⟩)
            have := hfz (rel ++ m :: r)
            rw [← List.append_assoc] at this
            rw [← this]; exact hs0
          · exact Or.inr (Or.inr ⟨hq, he⟩)

theorem frozen_of_step (S D rel : Path) (fs fs1 : FS) (info : Entry)
    (hd1 : ¬ S <+: D) (hd2 : ¬ D <+: S)
    (e1 : ∀ q e, statPath fs q = some e → q ≠ D ++ rel → statPath fs1 q = some e)
    (e3 : ∀ q e, statPath fs1 q = some e →
      statPath fs q = some e ∨ (q = D ++ rel ∧ e = copyOf info) ∨
        (q <+: D ++ rel ∧ q ≠ D ++ rel ∧ e = Entry.dir))
    (x : Path) : statPath fs1 (S ++ x) = statPath fs (S ++ x) := by
  cases hx : statPath fs (S ++ x) with
  | some e => exact e1 _ _ hx (ne_of_disjoint S D hd1 hd2 _ _)
  | none =>
    cases hx' : statPath fs1 (S ++ x) with
    | none => rfl
    | some e =>
      rcases e3 _ _ hx' with h | ⟨hq, _⟩ | ⟨hq, _, _⟩
      · rw [hx] at h; exact absurd h (by simp)
      · exact absurd hq (ne_of_disjoint S D hd1 hd2 _ _)
      · exfalso
        have h1 : S <+: D ++ rel := (List.prefix_append S x).trans hq
        have h2 : D <+: D ++ rel := List.prefix_append D rel
        rcases List.prefix_or_prefix_of_prefix h1 h2 with h | h
        · exact hd1 h
        · exact hd2 h

/-- A successful walk of the subtree `S/rel`, with the destination outside the
source and the source outside the destination, copies exactly that subtree. -/
theorem walk_char (S D : Path) (hS : S ≠ []) (hd1 : ¬ S <+: D) (hd2 : ¬ D <+: S) (fuel : Nat) :
    ∀ rel info fs fs', statPath fs (S ++ rel) = some info → DirClosed S fs →
      walk allowAll (copyEntry allowAll S D) fuel (S ++ rel) info fs = some (fs', none) →
      WalkSpec S D rel fs fs' := by
  induction fuel with
  | zero =>
    intro rel info fs fs' _ _ h
    simp [walk] at h
  | succ fuel ih =>
    intro rel info fs fs' hinfo hc h
    cases info with
    | file c b =>
      simp only [walk, Option.some.injEq] at h
      obtain ⟨e1, e2, e3⟩ := copyEntry_step S D rel _ fs fs' hd1 hd2 hinfo h
      refine ⟨?_, ?_, ?_⟩
      · intro q e hq hs
        apply e1 q e hs
        intro heq; apply hq; rw [heq]
      · intro r e hs
        by_cases hr : r = []
        · subst hr
          simp only [List.append_nil] at hs ⊢
          rw [hinfo] at hs
          simp only [Option.some.injEq] at hs
          rw [← hs]; exact e2
        · have := dir_of_below S fs hc rel r hr (by rw [hs]; simp)
          rw [hinfo] at this
          simp at this
      · intro q e hs
        rcases e3 q e hs with h | ⟨hq, he⟩ | h
        · exact Or.inl h
        · exact Or.inr (Or.inl ⟨[], _, by simpa using hq, by simpa using hinfo, he⟩)
        · exact Or.inr (Or.inr h)
    | dir =>
      simp only [walk, allowAll_apply, Bool.false_eq_true, if_false] at h
      split at h
      · simp at h
      · rename_i fs1 hcb
        obtain ⟨e1, e2, e3⟩ := copyEntry_step S D rel _ fs fs1 hd1 hd2 hinfo hcb
        have hfz := frozen_of_step S D rel fs fs1 _ hd1 hd2 e1 e3
        have hc1 := dirClosed_of_frozen S fs fs1 hfz hc
        obtain ⟨n1, n2, n3⟩ := walkNames_char S D hd1 hd2 (walk allowAll (copyEntry allowAll S D) fuel) ih rel
          (readDirNames fs (S ++ rel)) fs1 fs' hc1 h
        have hout : ∀ q, ¬ D ++ rel <+: q →
            ∀ m ∈ readDirNames fs (S ++ rel), ¬ D ++ rel ++ [m] <+: q :=
          fun q hq m _ hp => hq ((List.prefix_append _ _).trans hp)
        refine ⟨?_, ?_, ?_⟩
        · intro q e hq hs
          apply n1 q e (hout q hq)
          apply e1 q e hs
          intro heq; apply hq; rw [heq]
        · intro r e hs
          cases r with
          | nil =>
            simp only [List.append_nil] at hs ⊢
            rw [hinfo] at hs
            simp only [Option.some.injEq] at hs
            rw [← hs]
            apply n1 _ _ _ e2
            intro m _ hp
            have := hp.length_le
            simp at this
          | cons n r =>
            have hn : statPath fs (S ++ rel ++ [n]) ≠ none := by
              by_cases hr : r = []
              · subst hr; rw [hs]; simp
              · have := dir_of_below S fs hc (rel ++ [n]) r hr (by
                  rw [← List.append_assoc, List.append_assoc _ [n] r]
                  simpa using (by rw [hs]; simp : statPath fs (S ++ rel ++ n :: r) ≠ none))
                rw [← List.append_assoc] at this
                rw [this]; simp
            have hmem := mem_readDirNames_of_stat fs S rel n hS hn
            apply n2 n hmem r e
            have := hfz (rel ++ n :: r)
            rw [← List.append_assoc] at this
            rw [this]; exact hs
        · intro q e hs
          rcases n3 q e hs with h | ⟨m, _, r, e0, hq, hs0, he⟩ | ⟨hq, he⟩
          · rcases e3 q e h with h | ⟨hq, he⟩ | h
            · exact Or.inl h
            · exact Or.inr (Or.inl ⟨[], _, by simpa using hq, by simpa using hinfo, he⟩)
            · exact Or.inr (Or.inr h)
          · refine Or.inr (Or.inl ⟨m :: r, e0, hq, ?_, he⟩)
            have := hfz (rel ++ m :: r)
            rw [← List.append_assoc] at this
            rw [← this]; exact hs0
          · by_cases hqd : q = D ++ rel
            · refine Or.inr (Or.inl ⟨[], Entry.dir, by simpa using hqd, by simpa using hinfo, ?_⟩)
              rw [he]; rfl
            · exact Or.inr (Or.inr ⟨hq, hqd, he⟩)
/-! ## Properties: names as the system resolves them -/

theorem resolveFrom_ok_eq (fs : FS) (rooted : Bool) (segs : List GoString) :
    ∀ stk out, resolveFrom fs rooted segs stk = Except.ok out →
      out = segs.foldl (cleanStep rooted) stk := by
  induction segs with
  | nil =>
    intro stk out h
    simp only [resolveFrom, Except.ok.injEq] at h
    simp [h]
  | cons seg rest ih =>
    intro stk out h
    simp only [resolveFrom] at h
    by_cases hseg : seg = []
    · simp only [hseg, if_true] at h
      have := ih stk out h
      rw [this, hseg]
      simp [cleanStep]
    · simp only [hseg, if_false] at h
      split at h
      · simp only [List.foldl_cons]
        exact ih _ out h
      · simp at h
      · simp at h

/-- A name that resolves, resolves to the path it stands for lexically. -/
theorem resolve_ok_eq (cwd : List GoString) (fs : FS) (name : GoString) (p : Path)
    (h : resolve cwd fs name = Except.ok p) : p = sysPath cwd name := by
  unfold resolve at h
  split at h
  · simp at h
  · split at h
    · rename_i stk hstk
      simp only [Except.ok.injEq] at h
      rw [← h, resolveFrom_ok_eq _ _ _ _ _ hstk]
      rfl
    · simp at h

theorem Lstat_some (cwd : List GoString) (fs : FS) (name : GoString) (e : Entry)
    (h : Lstat allowAll cwd fs name = some e) :
    resolve cwd fs name = Except.ok (sysPath cwd name) ∧
      statPath fs (sysPath cwd name) = some e := by
  unfold Lstat at h
  split at h
  · simp at h
  · rename_i p hp
    have hpe := resolve_ok_eq cwd fs name p hp
    subst hpe
    refine ⟨hp, ?_⟩
    simp only [allowAll_apply, Bool.false_eq_true, if_false] at h
    split at h
    · split at h
      · simp at h
      · rename_i hs _
        rw [hs]; exact h
    · exact h

theorem cleanStep_plain (rooted : Bool) (stk : List GoString) (seg : GoString)
    (h : seg ≠ dotdot) : cleanStep rooted stk seg = stk ∨ cleanStep rooted stk seg = seg :: stk := by
  unfold cleanStep
  by_cases h1 : seg = [] ∨ seg = dot
  · simp [h1]
  · simp [h1, h]

/-- Without a `..` element the stack only grows. -/
theorem foldl_cleanStep_suffix (rooted : Bool) (segs : List GoString) (hdd : dotdot ∉ segs) :
    ∀ stk, stk <:+ segs.foldl (cleanStep rooted) stk := by
  induction segs with
  | nil => intro stk; exact List.suffix_refl _
  | cons seg rest ih =>
    intro stk
    simp only [List.foldl_cons]
    have hseg : seg ≠ dotdot := fun h => hdd (by simp [h])
    have hrest : dotdot ∉ rest := fun h => hdd (List.mem_cons_of_mem _ h)
    rcases cleanStep_plain rooted stk seg hseg with h | h
    · rw [h]; exact ih hrest stk
    · rw [h]; exact (List.suffix_cons seg stk).trans (ih hrest _)

theorem stackPath_prefix (rooted : Bool) (a b : List GoString) (h : a <:+ b) :
    stackPath rooted a <+: stackPath rooted b := by
  unfold stackPath
  rw [List.prefix_append_right_inj]
  exact List.reverse_prefix.mpr h

/-- A name without a `..` element resolves when every path it passes is a
directory. -/
theorem resolveFrom_plain_ok (fs : FS) (rooted : Bool) (segs : List GoString)
    (hdd : dotdot ∉ segs) :
    ∀ stk, (∀ stk1, stk <:+ stk1 → stk1 <:+ segs.foldl (cleanStep rooted) stk →
        statPath fs (stackPath rooted stk1) = some Entry.dir) →
      resolveFrom fs rooted segs stk = Except.ok (segs.foldl (cleanStep rooted) stk) := by
  induction segs with
  | nil => intro stk _; rfl
  | cons seg rest ih =>
    intro stk h
    have hseg : seg ≠ dotdot := fun h => hdd (by simp [h])
    have hrest : dotdot ∉ rest := fun h => hdd (List.mem_cons_of_mem _ h)
    simp only [resolveFrom, List.foldl_cons]
    by_cases hs : seg = []
    · simp only [hs, if_true]
      have hc : cleanStep rooted stk [] = stk := by simp [cleanStep]
      rw [hc]
      apply ih hrest
      intro stk1 h1 h2
      apply h stk1 h1
      simp only [List.foldl_cons, hs, hc]
      exact h2
    · simp only [hs, if_false]
      have hgrow : stk <:+ cleanStep rooted stk seg := by
        rcases cleanStep_plain rooted stk seg hseg with h1 | h1
        · rw [h1]
        · rw [h1]; exact List.suffix_cons _ _
      rw [h stk (List.suffix_refl _) (by
        simp only [List.foldl_cons]
        exact hgrow.trans (foldl_cleanStep_suffix rooted rest hrest _))]
      apply ih hrest
      intro stk1 h1 h2
      exact h stk1 (hgrow.trans h1) (by simpa using h2)

theorem stackPath_ne_nil (stk : List GoString) : stackPath true stk ≠ [] := by
  simp [stackPath]

theorem sysPath_ne_nil (cwd : List GoString) (name : GoString) : sysPath cwd name ≠ [] :=
  stackPath_ne_nil _

theorem sysPath_head (cwd : List GoString) (name : GoString) :
    (sysPath cwd name).head? = some [] := by
  simp [sysPath, stackPath]

theorem cleanStep_skip (r : Bool) (s : List GoString) (seg : GoString)
    (h : seg = [] ∨ seg = dot) : cleanStep r s seg = s := by
  unfold cleanStep
  rw [if_pos h]

theorem cleanStep_push (r : Bool) (s : List GoString) (seg : GoString)
    (h1 : ¬ (seg = [] ∨ seg = dot)) (h2 : seg ≠ dotdot) : cleanStep r s seg = seg :: s := by
  unfold cleanStep
  rw [if_neg h1, if_neg h2]

theorem dotdot_kept : ¬ (dotdot = [] ∨ dotdot = dot) := by decide

theorem cleanStep_up_twice (r : Bool) (rest : List GoString) :
    cleanStep r (dotdot :: rest) dotdot = dotdot :: dotdot :: rest := by
  unfold cleanStep
  rw [if_neg dotdot_kept, if_pos rfl]
  simp

theorem cleanStep_up_pop (r : Bool) (top : GoString) (rest : List GoString)
    (h : top ≠ dotdot) : cleanStep r (top :: rest) dotdot = rest := by
  unfold cleanStep
  rw [if_neg dotdot_kept, if_pos rfl]
  simp [h]

theorem foldl_reverse_cons (f : List GoString → GoString → List GoString)
    (stk0 : List GoString) (a : GoString) (l : List GoString) :
    (a :: l).reverse.foldl f stk0 = f (l.reverse.foldl f stk0) a := by
  rw [List.reverse_cons, List.foldl_append]
  rfl

/-- One step of cleaning a relative name, carried over to the stack of the
working directory. -/
theorem cleanStep_lift (stk0 stk : List GoString) (seg : GoString)
    (hk : ∀ e ∈ stk, e ≠ [] ∧ e ≠ dot) :
    (cleanStep false stk seg).reverse.foldl (cleanStep true) stk0 =
        cleanStep true (stk.reverse.foldl (cleanStep true) stk0) seg ∧
      ∀ e ∈ cleanStep false stk seg, e ≠ [] ∧ e ≠ dot := by
  by_cases h1 : seg = [] ∨ seg = dot
  · rw [cleanStep_skip _ _ _ h1, cleanStep_skip _ _ _ h1]
    exact ⟨rfl, hk⟩
  · by_cases h2 : seg = dotdot
    · subst h2
      cases stk with
      | nil =>
        have hc : cleanStep false [] dotdot = [dotdot] := by decide
        rw [hc]
        refine ⟨rfl, ?_⟩
        intro e he
        have : e = dotdot := by simpa using he
        subst this
        exact ⟨by decide, by decide⟩
      | cons top rest =>
        by_cases h3 : top = dotdot
        · subst h3
          rw [cleanStep_up_twice]
          refine ⟨foldl_reverse_cons _ _ _ _, ?_⟩
          intro e he
          rcases List.mem_cons.mp he with h4 | h4
          · rw [h4]; exact ⟨by decide, by decide⟩
          · exact hk e h4
        · rw [cleanStep_up_pop _ _ _ h3]
          have htop := hk top (List.mem_cons_self _ _)
          refine ⟨?_, fun e he => hk e (List.mem_cons_of_mem _ he)⟩
          rw [foldl_reverse_cons,
            cleanStep_push true _ top (fun h => h.elim htop.1 htop.2) h3,
            cleanStep_up_pop _ _ _ h3]
    · rw [cleanStep_push _ _ _ h1 h2, cleanStep_push _ _ _ h1 h2]
      refine ⟨?_, ?_⟩
      · rw [foldl_reverse_cons, cleanStep_push _ _ _ h1 h2]
      · intro e he
        rcases List.mem_cons.mp he with h4 | h4
        · rw [h4]; exact ⟨fun h => h1 (Or.inl h), fun h => h1 (Or.inr h)⟩
        · exact hk e h4

theorem foldl_cleanStep_lift (stk0 : List GoString) (segs : List GoString) :
    ∀ stk, (∀ e ∈ stk, e ≠ [] ∧ e ≠ dot) →
      (segs.foldl (cleanStep false) stk).reverse.foldl (cleanStep true) stk0 =
        segs.foldl (cleanStep true) (stk.reverse.foldl (cleanStep true) stk0) ∧
      ∀ e ∈ segs.foldl (cleanStep false) stk, e ≠ [] ∧ e ≠ dot := by
  induction segs with
  | nil => intro stk hk; exact ⟨rfl, hk⟩
  | cons seg rest ih =>
    intro stk hk
    simp only [List.foldl_cons]
    obtain ⟨h1, h2⟩ := cleanStep_lift stk0 stk seg hk
    obtain ⟨h3, h4⟩ := ih _ h2
    exact ⟨by rw [h3, h1], h4⟩

/-- The absolute path of a cleaned name is the path that the name stands
for. -/
theorem absPath_Clean (cwd : List GoString) (name : GoString) :
    absPath cwd (Clean name) = sysPath cwd name := by
  by_cases hr : name.head? = some 47
  · have h1 : Clean name = stackPath true ((splitSlash name).foldl (cleanStep true) []) := by
      simp [Clean, stackPath, hr]
    rw [h1]
    simp [absPath, sysPath, startStack, stackPath, hr]
  · have hb : (name.head? == some 47) = false := by simpa using hr
    have h1 : Clean name = ((splitSlash name).foldl (cleanStep false) []).reverse := by
      simp [Clean, hb]
    obtain ⟨h2, h3⟩ := foldl_cleanStep_lift cwd.reverse (splitSlash name) [] (by simp)
    have hh : ((Clean name).head? == some []) = false := by
      rw [h1]
      cases hc : ((splitSlash name).foldl (cleanStep false) []).reverse with
      | nil => rfl
      | cons a l =>
        have ha : a ∈ (splitSlash name).foldl (cleanStep false) [] := by
          rw [← List.mem_reverse, hc]; exact List.mem_cons_self _ _
        have := (h3 a ha).1
        cases a with
        | nil => exact absurd rfl this
        | cons _ _ => rfl
    simp only [absPath, hh, Bool.false_eq_true, if_false]
    rw [h1, h2]
    simp [sysPath, startStack, hb]

theorem absPath_build (cwd : List GoString) (name : GoString) :
    absPath cwd ((fileName name).getD []) = sysPath cwd name := by
  by_cases h : name = []
  · subst h
    simp [fileName, absPath, sysPath, startStack, splitSlash, cleanStep]
  · simp only [fileName, h, if_false, Option.getD_some]
    exact absPath_Clean cwd name

theorem sysPath_join (cwd : List GoString) (a b : GoString) (ha : a ≠ []) :
    sysPath cwd (a ++ 47 :: b) =
      stackPath true ((splitSlash b).foldl (cleanStep true)
        ((splitSlash a).foldl (cleanStep true) (startStack cwd a))) := by
  have hhead : (a ++ 47 :: b).head? = a.head? := by
    cases a with
    | nil => exact absurd rfl ha
    | cons c cs => rfl
  simp only [sysPath, startStack, hhead, splitSlash_append, List.foldl_append]

theorem absPath_assets (cwd : List GoString) (name : GoString) :
    absPath cwd ((Join [name, ascii "assets"]).getD []) = sysPath cwd name ++ [ascii "assets"] := by
  by_cases h : name = []
  · subst h
    have : Join [[], ascii "assets"] = some [ascii "assets"] := by decide
    rw [this]
    simp [absPath, sysPath, startStack, splitSlash, cleanStep, stackPath, ascii, dot, dotdot]
  · have hj : Join [name, ascii "assets"] = some (Clean (name ++ 47 :: ascii "assets")) := by
      cases name with
      | nil => exact absurd rfl h
      | cons c cs => simp [Join, List.dropWhile, joinSlash]
    rw [hj, Option.getD_some, absPath_Clean, sysPath_join cwd name _ h]
    have : splitSlash (ascii "assets") = [ascii "assets"] := by decide
    rw [this]
    have hpush : ∀ s, cleanStep true s (ascii "assets") = ascii "assets" :: s := by
      intro s
      unfold cleanStep
      simp [ascii, dot, dotdot]
    simp [sysPath, stackPath, hpush]
/-! ## Properties: tables in which every entry lies in a directory -/

theorem stat_of_wellFormed (fs : FS) (hwf : wellFormed fs = true) (q : Path) (n : GoString)
    (h : statPath fs (q ++ [n]) ≠ none) : statPath fs q = some Entry.dir := by
  by_cases hi : implicitDir (q ++ [n])
  · rcases hi with hi | hi
    · simp at hi
    · have : q = [] := by
        cases q with
        | nil => rfl
        | cons a q =>
          have := congrArg List.length hi
          simp at this
      subst this
      exact statPath_implicit _ _ (Or.inl rfl)
  · rw [statPath_eq_lookup _ _ hi] at h
    cases hl : List.lookup (q ++ [n]) fs with
    | none => exact absurd hl h
    | some e =>
      have hmem := lookup_mem _ _ _ hl
      have := List.all_eq_true.mp hwf _ hmem
      simp only [List.dropLast_concat, Bool.and_eq_true, beq_iff_eq] at this
      exact this.1.1

theorem parentClosed_of_wellFormed (fs : FS) (hwf : wellFormed fs = true) : ParentClosed fs :=
  fun q n h => stat_of_wellFormed fs hwf q n h

theorem prefix_dir_of_parentClosed (s : FS) (h : ParentClosed s) (p : Path)
    (hp : statPath s p ≠ none) : ∀ q, q <+: p → q ≠ p → statPath s q = some Entry.dir := by
  induction p using List.reverseRecOn with
  | nil =>
    intro q hq hne
    exact absurd (List.prefix_nil.mp hq) hne
  | append_singleton p n ih =>
    intro q hq hne
    have hpar := h p n hp
    rcases List.prefix_concat_iff.mp hq with h1 | h1
    · exact absurd h1 hne
    · by_cases hqp : q = p
      · rw [hqp]; exact hpar
      · exact ih (by rw [hpar]; simp) q h1 hqp

theorem unrelated_of_walkSpec (S D rel : Path) (fs fs' : FS) (h : WalkSpec S D rel fs fs')
    (q : Path) (h1 : ¬ (D ++ rel) <+: q) (h2 : ¬ q <+: (D ++ rel)) :
    statPath fs' q = statPath fs q := by
  obtain ⟨w1, _, w3⟩ := h
  cases hx : statPath fs q with
  | some e => exact w1 _ _ h1 hx
  | none =>
    cases hx' : statPath fs' q with
    | none => rfl
    | some e =>
      rcases w3 _ _ hx' with h | ⟨r, e0, hq, _, _⟩ | ⟨hq, _, _⟩
      · rw [hx] at h; exact absurd h (by simp)
      · exfalso; apply h1; rw [hq]; exact List.prefix_append _ _
      · exact absurd hq h2

theorem dirClosed_of_wellFormed (S : Path) (fs : FS) (hwf : wellFormed fs = true) :
    DirClosed S fs := fun x n h => stat_of_wellFormed fs hwf (S ++ x) n h

theorem not_below_outside (B q : Path) (h : ¬ B <+: q) : below B q = false := by
  unfold below
  rw [Bool.eq_false_iff]; intro hp; exact h (List.isPrefixOf_iff_prefix.mp hp)

/-- What the clean step does when the system refuses nothing: it leaves the
table alone, or it removes what lies at or below the path of the name, the
directory itself aside when the name ends in a `.` or `..` element. -/
theorem RemoveAll_shape (cwd : List GoString) (name : GoString) (fs : FS) :
    (RemoveAll allowAll cwd name fs).1 = fs ∨
    (name ≠ [] ∧ endsWithDot name = false ∧
      resolve cwd fs name = Except.ok (sysPath cwd name) ∧
      statPath fs (sysPath cwd name) ≠ none ∧
      (RemoveAll allowAll cwd name fs).1 = fs.filter (fun kv =>
        !(below (sysPath cwd name) kv.1) || (kv.1 == sysPath cwd name && lastIsDots name))) := by
  unfold RemoveAll
  by_cases h1 : name = []
  · simp [h1]
  · by_cases h2 : endsWithDot name = true
    · simp [h1, h2]
    · simp only [h1, h2, if_false, Bool.false_eq_true]
      cases hr : resolve cwd fs name with
      | error e => cases e <;> exact Or.inl rfl
      | ok p =>
        have hp := resolve_ok_eq cwd fs name p hr
        subst hp
        cases hs : statPath fs (sysPath cwd name) with
        | none => left; simp only [hs]
        | some e =>
          right
          have hany : ∀ l : FS, (l.any fun _ => false) = false := by
            intro l
            induction l with
            | nil => rfl
            | cons a l ih => simp [List.any]
          refine ⟨h1, trivial, rfl, by simp, ?_⟩
          simp only [allowAll_apply, Bool.and_false, hany, Bool.or_false, hs]

theorem RemoveAll_frame (cwd : List GoString) (name : GoString) (fs : FS) (q : Path)
    (h : ¬ sysPath cwd name <+: q) :
    statPath (RemoveAll allowAll cwd name fs).1 q = statPath fs q := by
  rcases RemoveAll_shape cwd name fs with h1 | ⟨_, _, _, _, h1⟩
  · rw [h1]
  · rw [h1]
    by_cases hq : implicitDir q
    · rw [statPath_implicit _ _ hq, statPath_implicit _ _ hq]
    · rw [statPath_filter fs
        (fun k => !(below (sysPath cwd name) k) || (k == sysPath cwd name && lastIsDots name))
        q hq]
      simp [not_below_outside _ _ h]

/-- A table without entries at or below `B` has nothing to look up there. -/
theorem statPath_of_all_outside (B : Path) (g : FS)
    (h : g.all (fun kv => !B.isPrefixOf kv.1) = true) (q : Path) (hq : B <+: q)
    (hi : ¬ implicitDir q) : statPath g q = none := by
  rw [statPath_eq_lookup _ _ hi]
  cases hl : List.lookup q g with
  | none => rfl
  | some e =>
    have := List.all_eq_true.mp h _ (lookup_mem _ _ _ hl)
    rw [List.isPrefixOf_iff_prefix.mpr hq] at this
    simp at this

theorem copyDir_char (cwd : List GoString) (fuel : Nat) (src : GoString) (dst : Option Path)
    (fs fs' : FS)
    (hd1 : ¬ sysPath cwd src <+: absPath cwd (dst.getD []))
    (hd2 : ¬ absPath cwd (dst.getD []) <+: sysPath cwd src)
    (hc : DirClosed (sysPath cwd src) fs)
    (h : copyDir allowAll cwd fuel src dst fs = some (fs', none)) :
    WalkSpec (sysPath cwd src) (absPath cwd (dst.getD [])) [] fs fs' := by
  simp only [copyDir] at h
  split at h
  · simp at h
  · rename_i info hinfo
    have h2 : walk allowAll (copyEntry allowAll (sysPath cwd src) (absPath cwd (dst.getD [])))
        fuel (sysPath cwd src ++ []) info fs = some (fs', none) := by
      simpa using h
    exact walk_char (sysPath cwd src) (absPath cwd (dst.getD [])) (sysPath_ne_nil cwd src)
      hd1 hd2 fuel [] info fs fs'
      (by simpa using (Lstat_some cwd fs src info hinfo).2) hc h2

theorem handleBuild_completed (cwd : List GoString) (fuel : Nat) (config : Config)
    (fs fs1 : FS)
    (h : handleBuild allowAll cwd fuel config fs = some (BuildResult.completed fs1)) :
    ∃ fsa, copyDir allowAll cwd fuel config.Source (fileName config.Build)
        (RemoveAll allowAll cwd config.Build fs).1 = some (fsa, none) ∧
      (((Lstat allowAll cwd fsa config.Assets).isSome = true ∧
          copyDir allowAll cwd fuel config.Assets (Join [config.Build, ascii "assets"]) fsa =
            some (fs1, none)) ∨
        ((Lstat allowAll cwd fsa config.Assets).isSome = false ∧ fs1 = fsa)) := by
  simp only [handleBuild] at h
  split at h
  · simp at h
  · simp at h
  · rename_i fsa hsrc
    refine ⟨fsa, hsrc, ?_⟩
    split at h
    · rename_i hst
      left
      refine ⟨hst, ?_⟩
      split at h
      · simp at h
      · simp at h
      · rename_i fs2 hcp
        simp only [Option.some.injEq, BuildResult.completed.injEq] at h
        rw [← h]; exact hcp
    · rename_i hst
      right
      simp only [Option.some.injEq, BuildResult.completed.injEq] at h
      exact ⟨by simpa using hst, h.symm⟩

theorem ne_nil_of_not_prefix (A B : Path) (h : ¬ A <+: B) : A ≠ [] := by
  intro hA; apply h; rw [hA]; exact List.nil_prefix

theorem not_implicit_below (B : Path) (n : GoString) (q : Path) (hB : B ≠ []) :
    ¬ implicitDir (B ++ n :: q) := by
  intro h
  rcases h with h | h
  · simp at h
  · have := congrArg List.length h
    cases B with
    | nil => exact hB rfl
    | cons a B => simp at this

theorem no_entry_below (S : Path) (fs : FS) (hc : DirClosed S fs) (n : GoString)
    (hno : statPath fs (S ++ [n]) = none) (q : Path) : statPath fs (S ++ n :: q) = none := by
  by_cases hq : q = []
  · subst hq; exact hno
  · by_contra hne
    have := dir_of_below S fs hc [n] q hq (by simpa [List.append_assoc] using hne)
    rw [hno] at this
    simp at this

/-- A name without a `..` element names a directory when its cleaned path and
everything above it are directories. -/
theorem Lstat_plain_dir (cwd : List GoString) (fs : FS) (name : GoString)
    (hdd : dotdot ∉ splitSlash name) (hne : name ≠ [])
    (h : ∀ q, q <+: sysPath cwd name → statPath fs q = some Entry.dir) :
    Lstat allowAll cwd fs name = some Entry.dir := by
  have hr : resolve cwd fs name = Except.ok (sysPath cwd name) := by
    unfold resolve
    simp only [hne, if_false]
    rw [resolveFrom_plain_ok fs _ _ hdd (startStack cwd name) ?_]
    · rfl
    · intro stk1 _ h2
      apply h
      exact stackPath_prefix _ _ _ h2
  simp only [Lstat, hr, allowAll_apply, h _ (List.prefix_refl _)]
  simp

/-- The state in which the assets are copied, and what the source copy left in
it: shared by the properties of the build. -/
theorem build_source_stage (cwd : List GoString) (fuel : Nat) (config : Config) (fs fsa : FS)
    (hwf : wellFormed fs = true)
    (hSB1 : ¬ sysPath cwd config.Source <+: sysPath cwd config.Build)
    (hSB2 : ¬ sysPath cwd config.Build <+: sysPath cwd config.Source)
    (h : copyDir allowAll cwd fuel config.Source (fileName config.Build)
      (RemoveAll allowAll cwd config.Build fs).1 = some (fsa, none)) :
    WalkSpec (sysPath cwd config.Source) (sysPath cwd config.Build) []
      (RemoveAll allowAll cwd config.Build fs).1 fsa := by
  have hW := copyDir_char cwd fuel _ _ _ _ (by rw [absPath_build]; exact hSB1)
    (by rw [absPath_build]; exact hSB2) ?_ h
  · rw [absPath_build] at hW; exact hW
  apply dirClosed_of_frozen _ fs _ _ (dirClosed_of_wellFormed _ fs hwf)
  intro x
  apply RemoveAll_frame
  have := not_prefix_of_disjoint _ _ hSB1 hSB2 [] x
  simpa using this

/-- After the source copy there is nothing under `buildDir/assets` when the
clean step left nothing in the build directory and the source tree has no
entry `assets`. -/
theorem build_no_assets_after_source (cwd : List GoString) (config : Config) (fs fsa : FS)
    (hwf : wellFormed fs = true)
    (hclean : (RemoveAll allowAll cwd config.Build fs).1.all
      (fun kv => !(sysPath cwd config.Build).isPrefixOf kv.1) = true)
    (hSB1 : ¬ sysPath cwd config.Source <+: sysPath cwd config.Build)
    (hSB2 : ¬ sysPath cwd config.Build <+: sysPath cwd config.Source)
    (hno : statPath fs (sysPath cwd config.Source ++ [ascii "assets"]) = none)
    (hW : WalkSpec (sysPath cwd config.Source) (sysPath cwd config.Build) []
      (RemoveAll allowAll cwd config.Build fs).1 fsa)
    (q : Path) : statPath fsa (sysPath cwd config.Build ++ ascii "assets" :: q) = none := by
  have hBn := sysPath_ne_nil cwd config.Build
  by_contra hne
  cases hs : statPath fsa (sysPath cwd config.Build ++ ascii "assets" :: q) with
  | none => exact hne hs
  | some e =>
    obtain ⟨_, _, w3⟩ := hW
    rcases w3 _ _ hs with h | ⟨r, e0, hq, hs0, _⟩ | ⟨hq, _, _⟩
    · rw [statPath_of_all_outside _ _ hclean _ (List.prefix_append _ _)
        (not_implicit_below _ _ _ hBn)] at h
      simp at h
    · simp only [List.append_nil, List.append_cancel_left_eq] at hq
      subst hq
      have hx : ¬ sysPath cwd config.Build <+: sysPath cwd config.Source ++ ascii "assets" :: q := by
        have := not_prefix_of_disjoint _ _ hSB1 hSB2 [] (ascii "assets" :: q)
        simpa using this
      simp only [List.append_nil] at hs0
      rw [RemoveAll_frame _ _ _ _ hx,
        no_entry_below _ fs (dirClosed_of_wellFormed _ fs hwf) _ hno q] at hs0
      simp at hs0
    · have := hq.length_le
      simp at this

/-- C7, amended. When the system refuses no call and the build completes,
with a build directory in which the clean step leaves nothing and that lies
neither inside nor around the source and assets directories, a name of the
assets directory that is not empty, has no `..` element and is not the name
of a regular file, and a source tree without an entry `assets`: every file of
the source tree is at the same relative path in the build directory with the
same bytes, every file of the assets tree is under `buildDir/assets` with the
same bytes, and every file under `buildDir/assets` comes from the assets
tree. -/
theorem build_mirrors (deny : Deny) (cwd : List GoString) (fuel : Nat) (config : Config)
    (fs fs1 : FS)
    (hdeny : ∀ c p, deny c p = false)
    (hwf : wellFormed fs = true)
    (hclean : (RemoveAll deny cwd config.Build fs).1.all
      (fun kv => !(sysPath cwd config.Build).isPrefixOf kv.1) = true)
    (hSB1 : ¬ sysPath cwd config.Source <+: sysPath cwd config.Build)
    (hSB2 : ¬ sysPath cwd config.Build <+: sysPath cwd config.Source)
    (hAB1 : ¬ sysPath cwd config.Assets <+: sysPath cwd config.Build)
    (hAB2 : ¬ sysPath cwd config.Build <+: sysPath cwd config.Assets)
    (hA0 : config.Assets ≠ [])
    (hA3 : dotdot ∉ splitSlash config.Assets)
    (hAf : ∀ c b, statPath fs (sysPath cwd config.Assets) ≠ some (Entry.file c b))
    (hno : statPath fs (sysPath cwd config.Source ++ [ascii "assets"]) = none)
    (h : handleBuild deny cwd fuel config fs = some (BuildResult.completed fs1)) :
    (∀ p c b, statPath fs (sysPath cwd config.Source ++ p) = some (Entry.file c b) →
      statPath fs1 (sysPath cwd config.Build ++ p) = some (Entry.file c true)) ∧
    (∀ q c b, statPath fs (sysPath cwd config.Assets ++ q) = some (Entry.file c b) →
      statPath fs1 (sysPath cwd config.Build ++ ascii "assets" :: q) = some (Entry.file c true)) ∧
    (∀ q c b, statPath fs1 (sysPath cwd config.Build ++ ascii "assets" :: q) = some (Entry.file c b) →
      ∃ b', statPath fs (sysPath cwd config.Assets ++ q) = some (Entry.file c b')) := by
  obtain rfl : deny = allowAll := funext fun c => funext fun p => hdeny c p
  obtain ⟨fsa, hsrc, hassets⟩ := handleBuild_completed cwd fuel config fs fs1 h
  have hW := build_source_stage cwd fuel config fs fsa hwf hSB1 hSB2 hsrc
  have hnone := build_no_assets_after_source cwd config fs fsa hwf hclean hSB1 hSB2 hno hW
  -- the source and assets trees as the source copy leaves them
  have hsrcA : ∀ x, statPath fsa (sysPath cwd config.Source ++ x) =
      statPath fs (sysPath cwd config.Source ++ x) := by
    intro x
    rw [frozen_of_walkSpec _ _ [] _ _ hSB1 hSB2 hW x]
    apply RemoveAll_frame
    simpa using not_prefix_of_disjoint _ _ hSB1 hSB2 [] x
  have hasA : ∀ x, statPath fsa (sysPath cwd config.Assets ++ x) =
      statPath fs (sysPath cwd config.Assets ++ x) := by
    intro x
    have h1 : ¬ sysPath cwd config.Build <+: sysPath cwd config.Assets ++ x := by
      simpa using not_prefix_of_disjoint _ _ hAB1 hAB2 [] x
    have h2 : ¬ sysPath cwd config.Assets ++ x <+: sysPath cwd config.Build :=
      fun hp => hAB1 ((List.prefix_append _ _).trans hp)
    rw [unrelated_of_walkSpec _ _ [] _ _ hW _ (by simpa using h1) (by simpa using h2)]
    exact RemoveAll_frame _ _ _ _ h1
  -- the source copy
  have hcopyS : ∀ p c b, statPath fs (sysPath cwd config.Source ++ p) = some (Entry.file c b) →
      statPath fsa (sysPath cwd config.Build ++ p) = some (Entry.file c true) := by
    intro p c b hp
    obtain ⟨_, w2, _⟩ := hW
    have h1 : ¬ sysPath cwd config.Build <+: sysPath cwd config.Source ++ p := by
      simpa using not_prefix_of_disjoint _ _ hSB1 hSB2 [] p
    have := w2 p (Entry.file c b) (by
      simp only [List.append_nil]
      rw [RemoveAll_frame _ _ _ _ h1]; exact hp)
    simpa [copyOf] using this
  rcases hassets with ⟨hst, hcp⟩ | ⟨hst, hfs⟩
  · -- the assets are copied
    have hd1 : ¬ sysPath cwd config.Assets <+: sysPath cwd config.Build ++ [ascii "assets"] := by
      intro hp
      rcases List.prefix_concat_iff.mp hp with h1 | h1
      · apply hAB2; rw [h1]; exact List.prefix_append _ _
      · exact hAB1 h1
    have hd2 : ¬ sysPath cwd config.Build ++ [ascii "assets"] <+: sysPath cwd config.Assets :=
      fun hp => hAB2 ((List.prefix_append _ _).trans hp)
    have hcA : DirClosed (sysPath cwd config.Assets) fsa :=
      dirClosed_of_frozen _ fs _ hasA (dirClosed_of_wellFormed _ fs hwf)
    have hV := copyDir_char cwd fuel _ _ _ _ (by rw [absPath_assets]; exact hd1)
      (by rw [absPath_assets]; exact hd2) hcA hcp
    rw [absPath_assets] at hV
    obtain ⟨v1, v2, v3⟩ := hV
    refine ⟨?_, ?_, ?_⟩
    · intro p c b hp
      apply v1 _ _ _ (hcopyS p c b hp)
      intro hpre
      simp only [List.append_nil, List.append_assoc, List.prefix_append_right_inj] at hpre
      obtain ⟨t, ht⟩ := hpre
      have hx := no_entry_below _ fs (dirClosed_of_wellFormed _ fs hwf) _ hno t
      rw [← ht] at hp
      simp only [List.singleton_append] at hp
      rw [hx] at hp
      simp at hp
    · intro q c b hq
      have := v2 q (Entry.file c b) (by
        simp only [List.append_nil]; rw [hasA]; exact hq)
      simpa [copyOf, List.append_assoc] using this
    · intro q c b hq
      rcases v3 _ _ hq with h1 | ⟨r, e0, hr, hs0, he⟩ | ⟨_, _, he⟩
      · rw [hnone q] at h1; simp at h1
      · simp only [List.append_nil, List.append_assoc, List.singleton_append,
          List.append_cancel_left_eq, List.cons.injEq, true_and] at hr
        subst hr
        simp only [List.append_nil] at hs0
        rw [hasA] at hs0
        cases e0 with
        | dir => simp [copyOf] at he
        | file c0 b0 =>
          simp only [copyOf, Entry.file.injEq] at he
          exact ⟨b0, by rw [he.1]; exact hs0⟩
      · simp at he
  · -- no assets directory
    subst hfs
    refine ⟨hcopyS, ?_, ?_⟩
    · intro q c b hq
      exfalso
      have hpc := parentClosed_of_wellFormed fs hwf
      have hq0 : q ≠ [] := by
        intro hq0
        subst hq0
        simp only [List.append_nil] at hq
        exact hAf c b hq
      have hAd : statPath fs (sysPath cwd config.Assets) = some Entry.dir := by
        have := dir_of_below _ fs (dirClosed_of_wellFormed _ fs hwf) [] q hq0 (by
          simp only [List.append_nil]; rw [hq]; simp)
        simpa using this
      have hdirs : ∀ p, p <+: sysPath cwd config.Assets → statPath fs1 p = some Entry.dir := by
        intro p hp
        have hfsd : statPath fs p = some Entry.dir := by
          by_cases hpe : p = sysPath cwd config.Assets
          · rw [hpe]; exact hAd
          · exact prefix_dir_of_parentClosed fs hpc _ (by rw [hAd]; simp) p hp hpe
        have hnb : ¬ sysPath cwd config.Build <+: p := fun hb => hAB2 (hb.trans hp)
        obtain ⟨w1, _, _⟩ := hW
        apply w1 p _ (by simpa using hnb)
        rw [RemoveAll_frame _ _ _ _ hnb]
        exact hfsd
      rw [Lstat_plain_dir cwd fs1 config.Assets hA3 hA0 hdirs] at hst
      simp at hst
    · intro q c b hq
      rw [hnone q] at hq
      simp at hq
theorem build_mirrors_witness :
    (∀ c p, allowAll c p = false) ∧
    wellFormed (atHome fsProject) = true ∧
    (RemoveAll allowAll home defaultConfig.Build (atHome fsProject)).1.all
      (fun kv => !(sysPath home defaultConfig.Build).isPrefixOf kv.1) = true ∧
    ¬ sysPath home defaultConfig.Source <+: sysPath home defaultConfig.Build ∧
    ¬ sysPath home defaultConfig.Build <+: sysPath home defaultConfig.Source ∧
    ¬ sysPath home defaultConfig.Assets <+: sysPath home defaultConfig.Build ∧
    ¬ sysPath home defaultConfig.Build <+: sysPath home defaultConfig.Assets ∧
    defaultConfig.Assets ≠ [] ∧
    dotdot ∉ splitSlash defaultConfig.Assets ∧
    statPath (atHome fsProject) (sysPath home defaultConfig.Assets) = some Entry.dir ∧
    statPath (atHome fsProject) (sysPath home defaultConfig.Source ++ [ascii "assets"]) = none ∧
    handleBuild allowAll home 10 defaultConfig (atHome fsProject) =
      some (BuildResult.completed (atHome fsProjectBuilt)) ∧
    ((∀ p c b, statPath (atHome fsProject) (sysPath home defaultConfig.Source ++ p) =
        some (Entry.file c b) →
      statPath (atHome fsProjectBuilt) (sysPath home defaultConfig.Build ++ p) =
        some (Entry.file c true)) ∧
    (∀ q c b, statPath (atHome fsProject) (sysPath home defaultConfig.Assets ++ q) =
        some (Entry.file c b) →
      statPath (atHome fsProjectBuilt) (sysPath home defaultConfig.Build ++ ascii "assets" :: q) =
        some (Entry.file c true)) ∧
    (∀ q c b, statPath (atHome fsProjectBuilt)
        (sysPath home defaultConfig.Build ++ ascii "assets" :: q) = some (Entry.file c b) →
      ∃ b', statPath (atHome fsProject) (sysPath home defaultConfig.Assets ++ q) =
        some (Entry.file c b'))) :=
  ⟨fun _ _ => rfl, by decide, by decide, by decide, by decide, by decide, by decide, by decide,
    by decide, by decide, by decide, by decide,
    build_mirrors allowAll home 10 defaultConfig (atHome fsProject) (atHome fsProjectBuilt)
      (fun _ _ => rfl) (by decide) (by decide) (by decide) (by decide) (by decide) (by decide)
      (by decide) (by decide)
      (fun c b h => by
        have hd : statPath (atHome fsProject) (sysPath home defaultConfig.Assets) =
            some Entry.dir := by decide
        rw [hd] at h
        exact absurd h (by simp))
      (by decide) (by decide)⟩

/-- C7, as stated, fails: with a directory `assets` in the source tree, the
completed build in the working directory `/w` has `dist/assets/a.txt`, a file
that is not in the assets directory. -/
theorem build_overlay_counterexample :
    handleBuild allowAll home 10 defaultConfig (atHome fsOverlay) =
      some (BuildResult.completed (atHome fsOverlayBuilt)) ∧
    statPath (atHome fsOverlayBuilt)
        [[], ascii "w", ascii "dist", ascii "assets", ascii "a.txt"] =
      some (Entry.file (ascii "a") true) ∧
    statPath (atHome fsOverlay) [[], ascii "w", ascii "assets", ascii "a.txt"] = none := by
  decide

/-! ## Properties: the walk ends and succeeds -/

theorem nodup_readDirNames (fs : FS) (p : Path) : (readDirNames fs p).Nodup := by
  unfold readDirNames
  exact (List.perm_insertionSort _ _).nodup_iff.mpr (List.nodup_dedup _)

theorem copyFile_ok (src dst : Path) (fs : FS) (c : GoString)
    (hsrc : statPath fs src = some (Entry.file c true))
    (hdst : statPath fs dst = none)
    (hanc : ∀ q, q <+: dst → q ≠ dst → ∀ c b, statPath fs q ≠ some (Entry.file c b)) :
    (copyFile allowAll src dst fs).2 = none := by
  have hlen : dst ≠ [] := by
    intro h; rw [h, statPath_implicit _ _ (Or.inl rfl)] at hdst; simp at hdst
  have hdl : dst.dropLast ≠ dst := by
    intro h
    have := congrArg List.length h
    rw [List.length_dropLast] at this
    have : 0 < dst.length := List.length_pos.mpr hlen
    omega
  have hok : (MkdirAll allowAll dst.dropLast fs).2 = none := by
    apply MkdirAll_ok
    intro q hq
    apply hanc q (hq.trans (List.dropLast_prefix _))
    intro h; rw [h] at hq
    have h1 := hq.length_le
    rw [List.length_dropLast] at h1
    have : 0 < dst.length := List.length_pos.mpr hlen
    omega
  have hpar := MkdirAll_success _ _ hok
  have hnew : statPath (MkdirAll allowAll dst.dropLast fs).1 dst = none := by
    cases h : statPath (MkdirAll allowAll dst.dropLast fs).1 dst with
    | none => rfl
    | some e =>
      rcases MkdirAll_only _ _ _ _ h with h1 | ⟨_, _, h1⟩
      · rw [hdst] at h1; simp at h1
      · exfalso
        have h2 := h1.length_le
        rw [List.length_dropLast] at h2
        have : 0 < dst.length := List.length_pos.mpr hlen
        omega
  have hne : src ≠ dst := by
    intro h; rw [h, hdst] at hsrc; simp at hsrc
  have hni : ¬ implicitDir dst := not_implicit_of_ne_dir fs _ (by rw [hdst]; simp)
  have hsrc2 : statPath (setEntry (MkdirAll allowAll dst.dropLast fs).1 dst (Entry.file [] true))
      src = some (Entry.file c true) := by
    rw [statPath_setEntry _ _ _ _ hni]
    simp [hne, MkdirAll_preserves _ _ _ _ hsrc]
  simp only [copyFile, allowAll_apply, Bool.false_eq_true, if_false, hsrc, hnew, hpar, hsrc2]

theorem walkNames_succ (S D : Path) (hd1 : ¬ S <+: D) (hd2 : ¬ D <+: S)
    (walkRec : Path → Entry → FS → Option (FS × Option Errno)) (fuel : Nat)
    (ihc : ∀ rel info fs fs', statPath fs (S ++ rel) = some info → DirClosed S fs →
      walkRec (S ++ rel) info fs = some (fs', none) → WalkSpec S D rel fs fs')
    (ihs : ∀ rel info fs, statPath fs (S ++ rel) = some info → DirClosed S fs →
      (∀ r c b, statPath fs (S ++ rel ++ r) = some (Entry.file c b) → b = true) →
      (∀ r, statPath fs (S ++ rel ++ r) ≠ none → r.length < fuel) →
      (∀ q, q <+: D ++ rel → q ≠ D ++ rel → ∀ c b, statPath fs q ≠ some (Entry.file c b)) →
      (∀ q, D ++ rel <+: q → q ≠ D ++ rel → statPath fs q = none) →
      (statPath fs (D ++ rel) = none ∨
        (statPath fs (D ++ rel) = some Entry.dir ∧ info = Entry.dir)) →
      ∃ fs', walkRec (S ++ rel) info fs = some (fs', none))
    (rel : Path) (ns : List GoString) :
    ∀ fs, ns.Nodup → DirClosed S fs →
      (∀ r c b, statPath fs (S ++ rel ++ r) = some (Entry.file c b) → b = true) →
      (∀ r, statPath fs (S ++ rel ++ r) ≠ none → r.length < fuel + 1) →
      (∀ n ∈ ns, statPath fs (S ++ rel ++ [n]) ≠ none) →
      (∀ q, q <+: D ++ rel → ∀ c b, statPath fs q ≠ some (Entry.file c b)) →
      (∀ n ∈ ns, ∀ q, D ++ rel ++ [n] <+: q → statPath fs q = none) →
      ∃ fs', walkNames allowAll walkRec (S ++ rel) ns fs = some (fs', none) := by
  induction ns with
  | nil => intro fs _ _ _ _ _ _ _; exact ⟨fs, rfl⟩
  | cons n ns ihn =>
    intro fs hnd hc hR hDp hEx hP1 hP2
    have hn := hEx n (List.mem_cons_self _ _)
    cases hinfo : statPath fs (S ++ rel ++ [n]) with
    | none => exact absurd hinfo hn
    | some fileInfo =>
      have hinfo2 : statPath fs (S ++ (rel ++ [n])) = some fileInfo := by
        rw [← List.append_assoc]; exact hinfo
      obtain ⟨fs2, hw⟩ := ihs (rel ++ [n]) fileInfo fs hinfo2 hc
        (fun r c b h => hR (n :: r) c b (by simpa [List.append_assoc] using h))
        (fun r h => by
          have := hDp (n :: r) (by simpa [List.append_assoc] using h)
          simpa using this)
        (fun q hq hne => by
          rw [← List.append_assoc] at hq hne
          rcases List.prefix_concat_iff.mp hq with h1 | h1
          · exact absurd h1 hne
          · exact hP1 q h1)
        (fun q hq _ => hP2 n (List.mem_cons_self _ _) q (by
          rw [← List.append_assoc] at hq; exact hq))
        (Or.inl (by
          rw [← List.append_assoc]
          exact hP2 n (List.mem_cons_self _ _) _ (List.prefix_refl _)))
      have hW := ihc (rel ++ [n]) fileInfo fs fs2 hinfo2 hc hw
      have hfz := frozen_of_walkSpec S D (rel ++ [n]) fs fs2 hd1 hd2 hW
      have hc2 := dirClosed_of_frozen S fs fs2 hfz hc
      have hfz2 : ∀ x, statPath fs2 (S ++ rel ++ x) = statPath fs (S ++ rel ++ x) := by
        intro x; rw [List.append_assoc]; exact hfz _
      obtain ⟨_, _, w3⟩ := hW
      have hnd2 := (List.nodup_cons.mp hnd)
      obtain ⟨fs', hrest⟩ := ihn fs2 hnd2.2 hc2
        (fun r c b h => hR r c b (by rw [← hfz2]; exact h))
        (fun r h => hDp r (by rw [← hfz2]; exact h))
        (fun m hm => by rw [hfz2]; exact hEx m (List.mem_cons_of_mem _ hm))
        (fun q hq c b h => by
          rcases w3 _ _ h with h1 | ⟨r, e0, hq2, _, _⟩ | ⟨_, _, he⟩
          · exact hP1 q hq c b h1
          · rw [hq2] at hq
            have := hq.length_le
            simp at this
          · simp at he)
        (fun m hm q hq => by
          cases h : statPath fs2 q with
          | none => rfl
          | some e =>
            exfalso
            rcases w3 _ _ h with h1 | ⟨r, e0, hq2, _, _⟩ | ⟨hq2, hne, _⟩
            · rw [hP2 m (List.mem_cons_of_mem _ hm) q hq] at h1; simp at h1
            · rw [hq2, List.append_assoc, List.append_assoc, List.append_assoc,
                List.prefix_append_right_inj, List.prefix_append_right_inj] at hq
              obtain ⟨t, ht⟩ := hq
              simp at ht
              exact hnd2.1 (ht.1 ▸ hm)
            · have h1 := hq.length_le
              have h2 := hq2.length_le
              apply hne
              apply hq2.eq_of_length
              simp at h1 h2 ⊢
              omega)
      refine ⟨fs', ?_⟩
      simp only [walkNames, lstatPath_allowAll, hinfo]
      have hw2 : walkRec (S ++ rel ++ [n]) fileInfo fs = some (fs2, none) := by
        rw [List.append_assoc]; exact hw
      rw [hw2]
      exact hrest

/-- With enough fuel, a readable source subtree and a destination that is
free, the walk returns without an error. -/
theorem walk_succ (S D : Path) (hS : S ≠ []) (hd1 : ¬ S <+: D) (hd2 : ¬ D <+: S) (fuel : Nat) :
    ∀ rel info fs, statPath fs (S ++ rel) = some info → DirClosed S fs →
      (∀ r c b, statPath fs (S ++ rel ++ r) = some (Entry.file c b) → b = true) →
      (∀ r, statPath fs (S ++ rel ++ r) ≠ none → r.length < fuel) →
      (∀ q, q <+: D ++ rel → q ≠ D ++ rel → ∀ c b, statPath fs q ≠ some (Entry.file c b)) →
      (∀ q, D ++ rel <+: q → q ≠ D ++ rel → statPath fs q = none) →
      (statPath fs (D ++ rel) = none ∨
        (statPath fs (D ++ rel) = some Entry.dir ∧ info = Entry.dir)) →
      ∃ fs', walk allowAll (copyEntry allowAll S D) fuel (S ++ rel) info fs = some (fs', none) := by
  induction fuel with
  | zero =>
    intro rel info fs hinfo _ _ hDp _ _ _
    have := hDp [] (by simp [hinfo])
    simp at this
  | succ fuel ih =>
    intro rel info fs hinfo hc hR hDp hP1 hP2 hP3
    cases info with
    | file c b =>
      have hb : b = true := hR [] c b (by simpa using hinfo)
      subst hb
      have hdst : statPath fs (D ++ rel) = none := by
        rcases hP3 with h | ⟨_, h⟩
        · exact h
        · simp at h
      have hok := copyFile_ok (S ++ rel) (D ++ rel) fs c hinfo hdst hP1
      refine ⟨(copyFile allowAll (S ++ rel) (D ++ rel) fs).1, ?_⟩
      simp only [walk, copyEntry, Rel_append]
      rw [← hok]
    | dir =>
      have hok : (MkdirAll allowAll (D ++ rel) fs).2 = none := by
        apply MkdirAll_ok
        intro q hq c b
        by_cases hqd : q = D ++ rel
        · rw [hqd]
          rcases hP3 with h | ⟨h, _⟩ <;> rw [h] <;> simp
        · exact hP1 q hq hqd c b
      have hcb : copyEntry allowAll S D (S ++ rel) Entry.dir fs = ((MkdirAll allowAll (D ++ rel) fs).1, none) := by
        simp only [copyEntry, Rel_append]
        rw [← hok]
      obtain ⟨e1, e2, e3⟩ := copyEntry_step S D rel _ fs _ hd1 hd2 hinfo hcb
      have hfz := frozen_of_step S D rel fs _ _ hd1 hd2 e1 e3
      have hc1 := dirClosed_of_frozen S fs _ hfz hc
      have hfz2 : ∀ x, statPath (MkdirAll allowAll (D ++ rel) fs).1 (S ++ rel ++ x) =
          statPath fs (S ++ rel ++ x) := by
        intro x; rw [List.append_assoc]; exact hfz _
      obtain ⟨fs', hrest⟩ := walkNames_succ S D hd1 hd2 (walk allowAll (copyEntry allowAll S D) fuel) fuel
        (walk_char S D hS hd1 hd2 fuel) ih rel (readDirNames fs (S ++ rel))
        (MkdirAll allowAll (D ++ rel) fs).1 (nodup_readDirNames _ _) hc1
        (fun r c b h => hR r c b (by rw [← hfz2]; exact h))
        (fun r h => hDp r (by rw [← hfz2]; exact h))
        (fun n hn => by
          rw [hfz2]
          obtain ⟨e, he⟩ := (mem_readDirNames fs (S ++ rel) n).mp hn
          rw [statPath_eq_lookup _ _ (not_implicit_child S rel n hS)]
          exact lookup_isSome_of_mem _ _ _ he)
        (fun q hq c b h => by
          rcases e3 _ _ h with h1 | ⟨_, he⟩ | ⟨_, _, he⟩
          · by_cases hqd : q = D ++ rel
            · rw [hqd] at h1
              rcases hP3 with h3 | ⟨h3, _⟩ <;> rw [h3] at h1 <;> simp at h1
            · exact hP1 q hq hqd c b h1
          · simp [copyOf] at he
          · simp at he)
        (fun n _ q hq => by
          cases h : statPath (MkdirAll allowAll (D ++ rel) fs).1 q with
          | none => rfl
          | some e =>
            exfalso
            have hlen := hq.length_le
            rcases e3 _ _ h with h1 | ⟨hq2, _⟩ | ⟨hq2, _, _⟩
            · rw [hP2 q ((List.prefix_append _ _).trans hq) (by
                intro heq; rw [heq] at hlen; simp at hlen)] at h1
              simp at h1
            · rw [hq2] at hlen; simp at hlen
            · have := hq2.length_le
              simp at hlen this
              omega)
      refine ⟨fs', ?_⟩
      simp only [walk, allowAll_apply, Bool.false_eq_true, if_false]
      rw [hcb]
      exact hrest

theorem length_le_depth (fs : FS) (kv : Path × Entry) (h : kv ∈ fs) :
    kv.1.length ≤ depth fs := by
  induction fs with
  | nil => simp at h
  | cons a fs ih =>
    rcases List.mem_cons.mp h with h1 | h1
    · subst h1; simp [depth]
    · have := ih h1
      simp only [depth]
      omega

theorem length_lt_of_stat (fs : FS) (S r : Path) (fuel : Nat) (hS : S ≠ [])
    (hfuel : depth fs < fuel) (h : statPath fs (S ++ r) ≠ none) : r.length < fuel := by
  by_cases hi : implicitDir (S ++ r)
  · have hr : r = [] := by
      rcases hi with hi | hi
      · simp at hi; exact hi.2
      · have h1 := congrArg List.length hi
        rw [List.length_append] at h1
        have h2 : 0 < S.length := List.length_pos.mpr hS
        simp only [List.length_singleton] at h1
        exact List.length_eq_zero.mp (by omega)
    subst hr
    simp; omega
  · rw [statPath_eq_lookup _ _ hi] at h
    cases hl : List.lookup (S ++ r) fs with
    | none => exact absurd hl h
    | some e =>
      have h3 : (S ++ r).length ≤ depth fs := length_le_depth fs (S ++ r, e) (lookup_mem _ _ _ hl)
      rw [List.length_append] at h3
      omega

/-- C8, amended. When the system refuses no call, there is no assets
directory, the source directory (under a name that is not empty and has no
`..` element) is a directory
whose files are all readable and which has no entry `assets`, and the build
directory is one in which the clean step leaves nothing, that lies neither
inside nor around the source and assets directories and whose parents are not
regular files, the build completes (for any fuel above the depth of the
table) and nothing exists under `buildDir/assets`. -/
theorem build_without_assets (deny : Deny) (cwd : List GoString) (fuel : Nat) (config : Config)
    (fs : FS)
    (hdeny : ∀ c p, deny c p = false)
    (hwf : wellFormed fs = true)
    (hclean : (RemoveAll deny cwd config.Build fs).1.all
      (fun kv => !(sysPath cwd config.Build).isPrefixOf kv.1) = true)
    (hSB1 : ¬ sysPath cwd config.Source <+: sysPath cwd config.Build)
    (hSB2 : ¬ sysPath cwd config.Build <+: sysPath cwd config.Source)
    (hAB1 : ¬ sysPath cwd config.Assets <+: sysPath cwd config.Build)
    (hAB2 : ¬ sysPath cwd config.Build <+: sysPath cwd config.Assets)
    (hS0 : config.Source ≠ [])
    (hS3 : dotdot ∉ splitSlash config.Source)
    (hsrc : statPath fs (sysPath cwd config.Source) = some Entry.dir)
    (hread : ∀ p c b, statPath fs (sysPath cwd config.Source ++ p) = some (Entry.file c b) →
      b = true)
    (hnoA : statPath fs (sysPath cwd config.Assets) = none)
    (hno : statPath fs (sysPath cwd config.Source ++ [ascii "assets"]) = none)
    (hanc : ∀ q, q <+: sysPath cwd config.Build → q ≠ sysPath cwd config.Build →
      ∀ c b, statPath fs q ≠ some (Entry.file c b))
    (hfuel : depth fs < fuel) :
    ∃ fs1, handleBuild deny cwd fuel config fs = some (BuildResult.completed fs1) ∧
      ∀ q, statPath fs1 (sysPath cwd config.Build ++ ascii "assets" :: q) = none := by
  obtain rfl : deny = allowAll := funext fun c => funext fun p => hdeny c p
  have hS := sysPath_ne_nil cwd config.Source
  have hBn := sysPath_ne_nil cwd config.Build
  have hpc := parentClosed_of_wellFormed fs hwf
  have hout : ∀ x, statPath (RemoveAll allowAll cwd config.Build fs).1
      (sysPath cwd config.Source ++ x) = statPath fs (sysPath cwd config.Source ++ x) := by
    intro x
    apply RemoveAll_frame
    simpa using not_prefix_of_disjoint _ _ hSB1 hSB2 [] x
  have hc0 := dirClosed_of_frozen _ fs _ hout (dirClosed_of_wellFormed _ fs hwf)
  obtain ⟨fsa, hw⟩ := walk_succ (sysPath cwd config.Source) (sysPath cwd config.Build) hS hSB1
    hSB2 fuel [] Entry.dir (RemoveAll allowAll cwd config.Build fs).1
    (by rw [hout]; simpa using hsrc) hc0
    (fun r c b h => hread r c b (by
      simp only [List.append_nil] at h; rw [← hout]; exact h))
    (fun r h => length_lt_of_stat fs _ r fuel hS hfuel (by
      simp only [List.append_nil] at h; rw [← hout]; exact h))
    (fun q hq hne c b => by
      simp only [List.append_nil] at hq hne
      rw [RemoveAll_frame _ _ _ _ (fun hp => hne (hq.eq_of_length
        (le_antisymm hq.length_le hp.length_le)))]
      exact hanc q hq hne c b)
    (fun q hq hne => by
      simp only [List.append_nil] at hq hne
      have hni : ¬ implicitDir q := by
        intro hi
        rcases hi with hi | hi
        · subst hi; exact hBn (List.prefix_nil.mp hq)
        · subst hi
          have h1 := hq.length_le
          have h2 : 0 < (sysPath cwd config.Build).length := List.length_pos.mpr hBn
          exact hne (hq.eq_of_length (by simp at h1 ⊢; omega)).symm
      exact statPath_of_all_outside _ _ hclean q hq hni)
    (by
      simp only [List.append_nil]
      by_cases hi : implicitDir (sysPath cwd config.Build)
      · exact Or.inr ⟨statPath_implicit _ _ hi, trivial⟩
      · exact Or.inl (statPath_of_all_outside _ _ hclean _ (List.prefix_refl _) hi))
  have hlst : Lstat allowAll cwd (RemoveAll allowAll cwd config.Build fs).1 config.Source =
      some Entry.dir := by
    apply Lstat_plain_dir _ _ _ hS3 hS0
    intro q hq
    rw [RemoveAll_frame _ _ _ _ (fun hb => hSB2 (hb.trans hq))]
    by_cases hqe : q = sysPath cwd config.Source
    · rw [hqe]; exact hsrc
    · exact prefix_dir_of_parentClosed fs hpc _ (by rw [hsrc]; simp) q hq hqe
  have hcopy : copyDir allowAll cwd fuel config.Source (fileName config.Build)
      (RemoveAll allowAll cwd config.Build fs).1 = some (fsa, none) := by
    simp only [copyDir, hlst, absPath_build]
    simp only [List.append_nil] at hw
    exact hw
  have hW := build_source_stage cwd fuel config fs fsa hwf hSB1 hSB2 hcopy
  have hnone := build_no_assets_after_source cwd config fs fsa hwf hclean hSB1 hSB2 hno hW
  have hA : Lstat allowAll cwd fsa config.Assets = none := by
    cases hl : Lstat allowAll cwd fsa config.Assets with
    | none => rfl
    | some e =>
      exfalso
      have h1 := (Lstat_some cwd fsa config.Assets e hl).2
      rw [unrelated_of_walkSpec _ _ [] _ _ hW _ (by simpa using hAB2) (by simpa using hAB1),
        RemoveAll_frame _ _ _ _ hAB2, hnoA] at h1
      simp at h1
  refine ⟨fsa, ?_, hnone⟩
  simp only [handleBuild, hcopy, hA]
  simp

theorem build_without_assets_witness :
    (∀ c p, allowAll c p = false) ∧
    wellFormed (atHome fsIndex) = true ∧
    (RemoveAll allowAll home defaultConfig.Build (atHome fsIndex)).1.all
      (fun kv => !(sysPath home defaultConfig.Build).isPrefixOf kv.1) = true ∧
    ¬ sysPath home defaultConfig.Source <+: sysPath home defaultConfig.Build ∧
    ¬ sysPath home defaultConfig.Build <+: sysPath home defaultConfig.Source ∧
    ¬ sysPath home defaultConfig.Assets <+: sysPath home defaultConfig.Build ∧
    ¬ sysPath home defaultConfig.Build <+: sysPath home defaultConfig.Assets ∧
    defaultConfig.Source ≠ [] ∧
    dotdot ∉ splitSlash defaultConfig.Source ∧
    statPath (atHome fsIndex) (sysPath home defaultConfig.Source) = some Entry.dir ∧
    (atHome fsIndex).all (fun kv => kv.2 == Entry.dir || kv.2 == copyOf kv.2) = true ∧
    statPath (atHome fsIndex) (sysPath home defaultConfig.Assets) = none ∧
    statPath (atHome fsIndex) (sysPath home defaultConfig.Source ++ [ascii "assets"]) = none ∧
    (sysPath home defaultConfig.Build).inits.all (fun q =>
      q == sysPath home defaultConfig.Build || statPath (atHome fsIndex) q == some Entry.dir ||
        statPath (atHome fsIndex) q == none) = true ∧
    depth (atHome fsIndex) < 5 ∧
    ∃ fs1, handleBuild allowAll home 5 defaultConfig (atHome fsIndex) =
        some (BuildResult.completed fs1) ∧
      ∀ q, statPath fs1 (sysPath home defaultConfig.Build ++ ascii "assets" :: q) = none :=
  ⟨fun _ _ => rfl, by decide, by decide, by decide, by decide, by decide, by decide, by decide,
    by decide, by decide, by decide, by decide, by decide, by decide, by decide,
    build_without_assets allowAll home 5 defaultConfig (atHome fsIndex) (fun _ _ => rfl)
      (by decide) (by decide) (by decide) (by decide) (by decide) (by decide) (by decide)
      (by decide) (by decide)
      (by
        intro p c b h
        have hmem : (sysPath home defaultConfig.Source ++ p, Entry.file c b) ∈ atHome fsIndex := by
          apply lookup_mem
          rw [← statPath_eq_lookup _ _ (not_implicit_of_ne_dir (atHome fsIndex) _ (by rw [h]; simp))]
          exact h
        have hall : (atHome fsIndex).all (fun kv => kv.2 == Entry.dir || kv.2 == copyOf kv.2) =
            true := by decide
        have := List.all_eq_true.mp hall _ hmem
        simpa [copyOf] using this)
      (by decide) (by decide)
      (by
        intro q hq hne c b h
        have hall : (sysPath home defaultConfig.Build).inits.all (fun q =>
            q == sysPath home defaultConfig.Build ||
              statPath (atHome fsIndex) q == some Entry.dir ||
              statPath (atHome fsIndex) q == none) = true := by decide
        have := List.all_eq_true.mp hall q ((List.mem_inits q _).mpr hq)
        rw [h] at this
        simp [hne] at this)
      (by decide)⟩

/-- C8, as stated, fails: with no assets directory and a readable source tree
that has a directory `assets` of its own, the completed build in the working
directory `/w` has the directory `dist/assets`. -/
theorem build_assets_from_source :
    Lstat allowAll home (atHome fsNoAssets) defaultConfig.Assets = none ∧
    handleBuild allowAll home 10 defaultConfig (atHome fsNoAssets) =
      some (BuildResult.completed (atHome fsNoAssetsBuilt)) ∧
    statPath (atHome fsNoAssetsBuilt) (sysPath home defaultConfig.Build ++ [ascii "assets"]) =
      some Entry.dir := by
  decide

/-- A directory of the source tree with a read-only mode is made with that
mode in the build directory, where the file inside it can then not be
created: the build ends in `log.Fatal`, with the directory made and the file
missing. -/
theorem build_read_only_directory :
    handleBuild (denyInside [[], ascii "w", ascii "dist", ascii "ro"]) home 10 defaultConfig
        (atHome fsReadOnly) =
      some (BuildResult.fatal (atHome fsReadOnlyBuilt) Errno.EACCES) := by
  decide
/-! ## Properties: what one run keeps -/

end Arvia
